import Mathlib

/-!
Verification of the RGA CRDT replication engine of the concurrent document
editor (src/crdt.py and src/concurrency.py), via a shallow embedding:
Python dicts become insertion-ordered association lists, the id tuples
`(counter, client)` become `Nat × String`, and the recursive DFS / walk
loops of the source take an explicit fuel argument (the Python recursion
is unbounded; on the well-formed stores considered here the fuel
`nodes.length + 1` is always sufficient, which is proved below).
-/

/-- Operation identifier: the Python tuple `(counter : int, client : str)`. -/
abbrev CrdtId := Nat × String

/-- The sentinel root `HEAD = (0, "HEAD")` of src/crdt.py. -/
def HEAD : CrdtId := (0, "HEAD")

/-- A CRDT node (dataclass `Node` of src/crdt.py). -/
structure Node where
  id : CrdtId
  after : CrdtId
  text : String
  deleted : Bool
deriving DecidableEq

/-- First-match lookup in an association list (Python `d[k]`, `k in d`,
`d.get(k)`). -/
def dlookup {β : Type} : List (CrdtId × β) → CrdtId → Option β
  | [], _ => none
  | (k, v) :: t, q => if k = q then some v else dlookup t q

/-- Python `d[k] = v` on an insertion-ordered dict: update the value in
place when the key is present, otherwise append the new key at the end. -/
def dset {β : Type} : List (CrdtId × β) → CrdtId → β → List (CrdtId × β)
  | [], q, v => [(q, v)]
  | (k, w) :: t, q, v => if k = q then (k, v) :: t else (k, w) :: dset t q v

/-- Python `d.setdefault(k, v)`: append `(k, v)` when `k` is absent. -/
def dsetdefault {β : Type} (l : List (CrdtId × β)) (q : CrdtId) (v : β) :
    List (CrdtId × β) :=
  if (dlookup l q).isSome then l else l ++ [(q, v)]

/-- Code-point comparison of character lists: Python `<=` on strings
(characters are compared by their numeric code point). -/
def charsLe : List Char → List Char → Bool
  | [], _ => true
  | _ :: _, [] => false
  | c :: cs, d :: ds =>
    if c.val.toNat < d.val.toNat then true
    else if d.val.toNat < c.val.toNat then false
    else charsLe cs ds

/-- Python `<=` on `(int, str)` tuples: lexicographic, strings by code point. -/
def idLe (a b : CrdtId) : Bool :=
  if a.1 < b.1 then true
  else if b.1 < a.1 then false
  else charsLe a.2.toList b.2.toList

/-- Python `<` on `(int, str)` tuples (strict version of `idLe`). -/
def idLt (a b : CrdtId) : Bool := !(idLe b a)

/-- The descending order used for `children` lists: `a` precedes `b`
exactly when `b ≤ a` as Python tuples. -/
def descRel (a b : CrdtId) : Prop := idLe b a = true

instance : DecidableRel descRel := fun a b => by
  unfold descRel
  infer_instance

theorem charsLe_total : ∀ x y : List Char, charsLe x y = true ∨ charsLe y x = true
  | [], _ => Or.inl rfl
  | _ :: _, [] => Or.inr rfl
  | c :: cs, d :: ds => by
    rcases Nat.lt_trichotomy c.val.toNat d.val.toNat with h | h | h
    · left
      simp [charsLe, h]
    · rcases charsLe_total cs ds with ih | ih
      · left
        simp [charsLe, h, ih]
      · right
        simp [charsLe, h, ih]
    · right
      simp [charsLe, h]

theorem charsLe_antisymm : ∀ x y : List Char,
    charsLe x y = true → charsLe y x = true → x = y
  | [], [], _, _ => rfl
  | [], _ :: _, _, h => by simp [charsLe] at h
  | _ :: _, [], h, _ => by simp [charsLe] at h
  | c :: cs, d :: ds, h₁, h₂ => by
    rcases Nat.lt_trichotomy c.val.toNat d.val.toNat with h | h | h
    · have hn : ¬ d.val.toNat < c.val.toNat := by omega
      simp [charsLe, h, hn] at h₂
    · have hc : c = d := Char.ext (UInt32.toNat.inj h)
      subst hc
      simp only [charsLe, Nat.lt_irrefl, if_false] at h₁ h₂
      exact congrArg (c :: ·) (charsLe_antisymm cs ds h₁ h₂)
    · have hn : ¬ c.val.toNat < d.val.toNat := by omega
      simp [charsLe, h, hn] at h₁

theorem charsLe_trans : ∀ x y z : List Char,
    charsLe x y = true → charsLe y z = true → charsLe x z = true
  | [], _, _, _, _ => rfl
  | _ :: _, [], _, h, _ => by simp [charsLe] at h
  | _ :: _, _ :: _, [], _, h => by simp [charsLe] at h
  | c :: cs, d :: ds, e :: es, h₁, h₂ => by
    rcases Nat.lt_trichotomy c.val.toNat d.val.toNat with h | h | h <;>
      rcases Nat.lt_trichotomy d.val.toNat e.val.toNat with h' | h' | h'
    all_goals
      simp only [charsLe] at h₁ h₂ ⊢
    · have : c.val.toNat < e.val.toNat := by omega
      simp [this]
    · have : c.val.toNat < e.val.toNat := by omega
      simp [this]
    · have hn : ¬ d.val.toNat < e.val.toNat := by omega
      simp [hn, h'] at h₂
    · have : c.val.toNat < e.val.toNat := by omega
      simp [this]
    · have hce : c.val.toNat = e.val.toNat := by omega
      have h1 : ¬ c.val.toNat < d.val.toNat := by omega
      have h2 : ¬ d.val.toNat < e.val.toNat := by omega
      have h3 : ¬ c.val.toNat < e.val.toNat := by omega
      have h4 : ¬ e.val.toNat < c.val.toNat := by omega
      simp only [h, Nat.lt_irrefl, if_false, h', h3, h4, if_neg] at h₁ h₂ ⊢
      exact charsLe_trans cs ds es h₁ h₂
    · have hn : ¬ d.val.toNat < e.val.toNat := by omega
      simp [hn, h'] at h₂
    · have hn : ¬ c.val.toNat < d.val.toNat := by omega
      simp [hn, h] at h₁
    · have hn : ¬ c.val.toNat < d.val.toNat := by omega
      simp [hn, h] at h₁
    · have hn : ¬ c.val.toNat < d.val.toNat := by omega
      simp [hn, h] at h₁

theorem idLe_total (a b : CrdtId) : idLe a b = true ∨ idLe b a = true := by
  unfold idLe
  rcases Nat.lt_trichotomy a.1 b.1 with h | h | h
  · left
    simp [h]
  · rcases charsLe_total a.2.toList b.2.toList with ih | ih
    · have ih' : charsLe a.2.data b.2.data = true := ih
      left
      simp [h, ih']
    · have ih' : charsLe b.2.data a.2.data = true := ih
      right
      simp [h, ih']
  · right
    simp [h]

theorem string_toList_inj {s t : String} (h : s.toList = t.toList) : s = t := by
  cases s
  cases t
  exact congrArg String.mk h

theorem idLe_antisymm {a b : CrdtId} (h₁ : idLe a b = true) (h₂ : idLe b a = true) :
    a = b := by
  unfold idLe at h₁ h₂
  rcases Nat.lt_trichotomy a.1 b.1 with h | h | h
  · have hn : ¬ b.1 < a.1 := by omega
    simp [h, hn] at h₂
  · have hn : ¬ a.1 < b.1 := by omega
    have hn' : ¬ b.1 < a.1 := by omega
    simp only [hn, hn', if_false, if_neg] at h₁ h₂
    have : a.2 = b.2 := string_toList_inj (charsLe_antisymm _ _ h₁ h₂)
    exact Prod.ext h this
  · have hn : ¬ a.1 < b.1 := by omega
    simp [h, hn] at h₁

theorem idLe_trans {a b c : CrdtId} (h₁ : idLe a b = true) (h₂ : idLe b c = true) :
    idLe a c = true := by
  unfold idLe at h₁ h₂ ⊢
  rcases Nat.lt_trichotomy a.1 b.1 with h | h | h <;>
    rcases Nat.lt_trichotomy b.1 c.1 with h' | h' | h'
  · simp [show a.1 < c.1 by omega]
  · simp [show a.1 < c.1 by omega]
  · have hn : ¬ b.1 < c.1 := by omega
    simp [h', hn] at h₂
  · simp [show a.1 < c.1 by omega]
  · have e1 : ¬ a.1 < b.1 := by omega
    have e2 : ¬ b.1 < a.1 := by omega
    have e3 : ¬ b.1 < c.1 := by omega
    have e4 : ¬ c.1 < b.1 := by omega
    have e5 : ¬ a.1 < c.1 := by omega
    have e6 : ¬ c.1 < a.1 := by omega
    simp only [e1, e2, e3, e4, e5, e6, if_false, if_neg] at h₁ h₂ ⊢
    exact charsLe_trans _ _ _ h₁ h₂
  · have hn : ¬ b.1 < c.1 := by omega
    simp [h', hn] at h₂
  · have hn : ¬ a.1 < b.1 := by omega
    simp [h, hn] at h₁
  · have hn : ¬ a.1 < b.1 := by omega
    simp [h, hn] at h₁
  · have hn : ¬ a.1 < b.1 := by omega
    simp [h, hn] at h₁

instance : IsTotal CrdtId descRel :=
  ⟨fun a b => by
    unfold descRel
    rcases idLe_total a b with h | h
    · exact Or.inr h
    · exact Or.inl h⟩

instance : IsTrans CrdtId descRel :=
  ⟨fun _ _ _ h₁ h₂ => idLe_trans h₂ h₁⟩

instance : IsAntisymm CrdtId descRel :=
  ⟨fun _ _ h₁ h₂ => idLe_antisymm h₂ h₁⟩

/-- Python `lst.sort(reverse=True)`: a stable sort in descending tuple order.
Since ids that compare equal under `idLe` are equal (antisymmetry), the
result of any correct sort is the unique `descRel`-sorted permutation, which
we model with `List.insertionSort`. -/
def sortDesc (l : List CrdtId) : List CrdtId := List.insertionSort descRel l

theorem sortDesc_sorted (l : List CrdtId) : List.Sorted descRel (sortDesc l) :=
  List.sorted_insertionSort descRel l

theorem sortDesc_perm (l : List CrdtId) : List.Perm (sortDesc l) l :=
  List.perm_insertionSort descRel l

/-- Two lists with the same multiset of ids have the same descending sort. -/
theorem sortDesc_congr {l₁ l₂ : List CrdtId} (h : List.Perm l₁ l₂) :
    sortDesc l₁ = sortDesc l₂ :=
  List.eq_of_perm_of_sorted ((sortDesc_perm l₁).trans (h.trans (sortDesc_perm l₂).symm))
    (sortDesc_sorted l₁) (sortDesc_sorted l₂)

theorem sortDesc_eq_self_of_sorted {l : List CrdtId} (h : List.Sorted descRel l) :
    sortDesc l = l :=
  List.eq_of_perm_of_sorted (sortDesc_perm l) (sortDesc_sorted l) h

/-- The RGA store: the insertion-ordered maps `nodes` and `children` of
class `RgaCrdt` (src/crdt.py). -/
structure Store where
  nodes : List (CrdtId × Node)
  children : List (CrdtId × List CrdtId)
deriving DecidableEq

/-- `RgaCrdt.__init__`: one HEAD node, one empty child list. -/
def initStore : Store :=
  { nodes := [(HEAD, ⟨HEAD, HEAD, "", false⟩)], children := [(HEAD, [])] }

/-- `RgaCrdt.apply_insert` (src/crdt.py lines 30-45): returns the updated
store together with the Python return value. -/
def apply_insert (s : Store) (parent node_id : CrdtId) (text : String) :
    Store × Bool :=
  if (dlookup s.nodes parent).isNone then (s, false)
  else if (dlookup s.nodes node_id).isSome then (s, true)
  else
    let nodes1 := dset s.nodes node_id ⟨node_id, parent, text, false⟩
    let ch1 := dsetdefault s.children parent []
    let cur := (dlookup ch1 parent).getD []
    let ch2 := dset ch1 parent (sortDesc (cur ++ [node_id]))
    let ch3 := dsetdefault ch2 node_id []
    ({ nodes := nodes1, children := ch3 }, true)

/-- `RgaCrdt.apply_delete` (src/crdt.py lines 47-55). -/
def apply_delete (s : Store) (node_id : CrdtId) : Store × Bool :=
  match dlookup s.nodes node_id with
  | none => (s, false)
  | some n =>
    if node_id = HEAD then (s, true)
    else ({ s with nodes := dset s.nodes node_id { n with deleted := true } }, true)

/-- The recursive DFS of `RgaCrdt._visible_nodes_in_order`, with explicit
fuel. A child id absent from `nodes` would raise `KeyError` in Python; here
it contributes nothing (that case is unreachable on well-formed stores). -/
def visRun (s : Store) : Nat → CrdtId → List Node
  | 0, _ => []
  | fuel + 1, parent =>
    ((dlookup s.children parent).getD []).flatMap fun cid =>
      match dlookup s.nodes cid with
      | some n => (if n.deleted then [] else [n]) ++ visRun s fuel cid
      | none => []

/-- `RgaCrdt._visible_nodes_in_order`: DFS from HEAD.  The fuel
`s.nodes.length + 1` bounds the recursion depth, which suffices on every
well-formed store (each recursive call descends to a node inserted strictly
later than its parent). -/
def visibleNodesInOrder (s : Store) : List Node :=
  visRun s (s.nodes.length + 1) HEAD

/-- `RgaCrdt.render`: concatenate the text of the visible nodes. -/
def render (s : Store) : String :=
  String.join ((visibleNodesInOrder s).map Node.text)

/-- `RgaCrdt.visible_id_map`: one id per character of each visible node. -/
def visible_id_map (s : Store) : List CrdtId :=
  (visibleNodesInOrder s).flatMap fun n => List.replicate n.text.length n.id

/-- `RgaCrdt.state_hash`: a deterministic hash of `render()` (Python's
string `hash` is modeled by Lean's string hash; the claims only use that it
is a function of the rendered string). -/
def state_hash (s : Store) : UInt64 :=
  hash (render s)

/-- One serialized node of `RgaCrdt.to_dict` (JSON encoding of the id as a
two-element array is abstracted away, it is bijective). -/
structure SnapEntry where
  id : CrdtId
  after : CrdtId
  text : String
  deleted : Bool
deriving DecidableEq

/-- `RgaCrdt.to_dict`: serialize `nodes.values()` in dict order. -/
def to_dict (s : Store) : List SnapEntry :=
  s.nodes.map fun p => ⟨p.2.id, p.2.after, p.2.text, p.2.deleted⟩

/-- One iteration of the `RgaCrdt.from_dict` loop: store the rebuilt node,
register it under its parent (unless it is self-referencing, like HEAD),
and make sure it has a child list. -/
def fromDictStep (st : Store) (e : SnapEntry) : Store :=
  let nodes1 := dset st.nodes e.id ⟨e.id, e.after, e.text, e.deleted⟩
  let ch1 :=
    if e.id ≠ e.after then
      let c0 := dsetdefault st.children e.after []
      dset c0 e.after (((dlookup c0 e.after).getD []) ++ [e.id])
    else st.children
  let ch2 := dsetdefault ch1 e.id []
  { nodes := nodes1, children := ch2 }

/-- `RgaCrdt.from_dict` (src/crdt.py lines 99-125): rebuild from entries,
then sort every child list in descending order. -/
def from_dict (entries : List SnapEntry) : Store :=
  let s1 := entries.foldl fromDictStep { nodes := [], children := [] }
  { s1 with children := s1.children.map fun p => (p.1, sortDesc p.2) }

/-- A replicated operation: `CRDT_INSERT` or `CRDT_DELETE` messages, also
the shape of entries of the `pending_ops` buffer of src/concurrency.py. -/
inductive Op where
  | insert (parent node_id : CrdtId) (text : String)
  | delete (node_id : CrdtId)
deriving DecidableEq

/-- Apply one operation to the store, returning the Python bool. -/
def applyOpB (s : Store) : Op → Store × Bool
  | .insert parent node_id text => apply_insert s parent node_id text
  | .delete node_id => apply_delete s node_id

/-- Apply one operation, keeping only the store. -/
def applyOp (s : Store) (op : Op) : Store := (applyOpB s op).1

/-- Apply a list of operations in order. -/
def applyOps (s : Store) (l : List Op) : Store := l.foldl applyOp s

/-- One pass of `_flush_pending_ops` over the buffer: apply each op to the
evolving store; successfully applied ops are dropped, failing ones are kept;
the Bool records whether the pass made progress. -/
def flushPass (s : Store) : List Op → Store × List Op × Bool
  | [] => (s, [], false)
  | op :: rest =>
    let r := applyOpB s op
    if r.2 then
      let rec2 := flushPass r.1 rest
      (rec2.1, rec2.2.1, true)
    else
      let rec2 := flushPass r.1 rest
      (rec2.1, op :: rec2.2.1, rec2.2.2)

/-- The `while made_progress` loop of `_flush_pending_ops`, with fuel and a
count of the passes that made progress.  The fuel `pending.length + 1` is
sufficient (claim C9): every productive pass strictly shrinks the buffer. -/
def flushLoop (s : Store) (pending : List Op) : Nat → Store × List Op × Nat
  | 0 => (s, pending, 0)
  | fuel + 1 =>
    let r := flushPass s pending
    if r.2.2 then
      let rec2 := flushLoop r.1 r.2.1 fuel
      (rec2.1, rec2.2.1, rec2.2.2 + 1)
    else (r.1, r.2.1, 0)

/-- `ConcurrentTextEditor._flush_pending_ops` (src/concurrency.py lines
853-880): early return on an empty buffer, else the pass loop. -/
def flushPending (s : Store) (pending : List Op) : Store × List Op × Nat :=
  if pending.isEmpty then (s, pending, 0)
  else flushLoop s pending (pending.length + 1)

/-- The part of the editor state that the remote-op handlers touch:
`self.crdt`, `self.pending_ops` and `self.crdt_counter`. -/
structure EState where
  store : Store
  pending : List Op
  counter : Nat
deriving DecidableEq

/-- `ConcurrentTextEditor._apply_remote_insert` (src/concurrency.py lines
823-839): observe the Lamport counter, then apply; on success flush the
pending buffer, on failure append the op to it. -/
def applyRemoteInsert (e : EState) (parent node_id : CrdtId) (text : String) :
    EState :=
  let cnt := max e.counter node_id.1
  let r := apply_insert e.store parent node_id text
  if r.2 then
    let f := flushPending r.1 e.pending
    { store := f.1, pending := f.2.1, counter := cnt }
  else
    { store := r.1, pending := e.pending ++ [Op.insert parent node_id text],
      counter := cnt }

/-- `ConcurrentTextEditor._apply_remote_delete` (src/concurrency.py lines
841-851): apply; on success only the GUI is refreshed (the pending buffer
is NOT flushed), on failure the op is appended to the buffer. -/
def applyRemoteDelete (e : EState) (node_id : CrdtId) : EState :=
  let r := apply_delete e.store node_id
  if r.2 then { store := r.1, pending := e.pending, counter := e.counter }
  else
    { store := r.1, pending := e.pending ++ [Op.delete node_id],
      counter := e.counter }

/-- A Lamport-clock event: a `next_op_id()` call or an observation of a
remote counter (`_update_lamport_clock`). -/
inductive ClockEvent where
  | tick
  | observe (c : Nat)

/-- Effect of one clock event on `self.crdt_counter`:
`next_op_id` pre-increments; `_update_lamport_clock(c)` raises the counter
to `c` when `c` is larger, i.e. takes the maximum. -/
def clockStep (n : Nat) : ClockEvent → Nat
  | .tick => n + 1
  | .observe c => max n c

/-- `ConcurrentTextEditor.next_op_id` (src/concurrency.py lines 689-692):
increment the counter and return `(counter, client_id)` with the new state. -/
def nextOpId (n : Nat) (client : String) : CrdtId × Nat :=
  ((n + 1, client), n + 1)

/-- First index of an id in a list (the `enumerate` search of
`_get_cursor_position_from_node`). -/
def posOf : List CrdtId → CrdtId → Option Nat
  | [], _ => none
  | x :: t, q =>
    if x = q then some 0
    else (posOf t q).map (· + 1)

/-- `ConcurrentTextEditor._update_cursor_node_from_position`
(src/concurrency.py lines 716-728), as a function of the caret position. -/
def updateFromCaret (s : Store) (pos : Nat) : CrdtId :=
  let idMap := visible_id_map s
  if pos = 0 then HEAD
  else if pos ≤ idMap.length then idMap.getD (pos - 1) HEAD
  else
    match idMap.getLast? with
    | some x => x
    | none => HEAD

/-- The ancestor walk of `_get_cursor_position_from_node` (src/concurrency.py
lines 742-761), with fuel: while the current id is not HEAD, stop with 0 if
it is missing from `nodes`; if its node is visible and found in the id map
return `index + 1`; otherwise move to its `after`. -/
def caretWalk (s : Store) (idMap : List CrdtId) : Nat → CrdtId → Nat
  | 0, _ => 0
  | fuel + 1, current =>
    if current = HEAD then 0
    else
      match dlookup s.nodes current with
      | none => 0
      | some n =>
        if n.deleted then caretWalk s idMap fuel n.after
        else
          match posOf idMap current with
          | some i => i + 1
          | none => caretWalk s idMap fuel n.after

/-- `ConcurrentTextEditor._get_cursor_position_from_node` (src/concurrency.py
lines 730-761), as a function of the anchor. -/
def caretFromAnchor (s : Store) (anchor : CrdtId) : Nat :=
  if anchor = HEAD then 0
  else
    match posOf (visible_id_map s) anchor with
    | some i => i + 1
    | none => caretWalk s (visible_id_map s) (s.nodes.length + 1) anchor

/-- Modelled from the spec: the walk described by the claim, "walk the
`after` chain upward until reaching a visible ancestor or HEAD", starting
from the anchor, with fuel (the chain of a well-formed store reaches HEAD
within `nodes.length` steps, proved below). -/
def firstVisibleUp (s : Store) : Nat → CrdtId → CrdtId
  | 0, _ => HEAD
  | fuel + 1, c =>
    if c = HEAD then HEAD
    else
      match dlookup s.nodes c with
      | none => HEAD
      | some n => if n.deleted then firstVisibleUp s fuel n.after else c

/-- Modelled from the spec: "that node's position" - the caret position of a
node, 0 for HEAD, else one past its first index in the visible id map. -/
def posOfNode (s : Store) (c : CrdtId) : Nat :=
  if c = HEAD then 0
  else
    match posOf (visible_id_map s) c with
    | some i => i + 1
    | none => 0

/-- Stores reachable from the fresh store by `apply_insert` / `apply_delete`. -/
inductive Reachable : Store → Prop where
  | init : Reachable initStore
  | insert {s} (parent node_id : CrdtId) (text : String) :
      Reachable s → Reachable (apply_insert s parent node_id text).1
  | delete {s} (node_id : CrdtId) :
      Reachable s → Reachable (apply_delete s node_id).1

theorem dlookup_dset_self {β : Type} (l : List (CrdtId × β)) (k : CrdtId) (v : β) :
    dlookup (dset l k v) k = some v := by
  induction l with
  | nil => simp [dset, dlookup]
  | cons p t ih =>
    by_cases h : p.1 = k
    · simp [dset, h, dlookup]
    · simp [dset, h, dlookup, ih]

theorem dlookup_dset_ne {β : Type} (l : List (CrdtId × β)) (k q : CrdtId) (v : β)
    (h : k ≠ q) : dlookup (dset l k v) q = dlookup l q := by
  induction l with
  | nil => simp [dset, dlookup, h]
  | cons p t ih =>
    by_cases hp : p.1 = k
    · simp [dset, hp, dlookup, h]
    · simp [dset, hp, dlookup, ih]

theorem dset_dset {β : Type} (l : List (CrdtId × β)) (k : CrdtId) (v w : β) :
    dset (dset l k v) k w = dset l k w := by
  induction l with
  | nil => simp [dset]
  | cons p t ih =>
    by_cases hp : p.1 = k
    · simp [dset, hp]
    · simp [dset, hp, ih]

theorem dset_of_lookup_some {β : Type} {l : List (CrdtId × β)} {k : CrdtId} {v : β}
    (h : dlookup l k = some v) : dset l k v = l := by
  induction l with
  | nil => simp [dlookup] at h
  | cons p t ih =>
    by_cases hp : p.1 = k
    · simp [dlookup, hp] at h
      cases p with
      | mk a b =>
        simp at hp h
        simp [dset, hp, h]
    · simp [dlookup, hp] at h
      simp [dset, hp, ih h]

theorem dset_of_lookup_none {β : Type} {l : List (CrdtId × β)} {k : CrdtId} (v : β)
    (h : dlookup l k = none) : dset l k v = l ++ [(k, v)] := by
  induction l with
  | nil => simp [dset]
  | cons p t ih =>
    by_cases hp : p.1 = k
    · simp [dlookup, hp] at h
    · simp [dlookup, hp] at h
      simp [dset, hp, ih h]

theorem dlookup_append {β : Type} (l m : List (CrdtId × β)) (q : CrdtId) :
    dlookup (l ++ m) q =
      match dlookup l q with
      | some v => some v
      | none => dlookup m q := by
  induction l with
  | nil => simp [dlookup]
  | cons p t ih =>
    by_cases hp : p.1 = q
    · simp [dlookup, hp]
    · simp [dlookup, hp, ih]

theorem dlookup_eq_none_iff {β : Type} (l : List (CrdtId × β)) (q : CrdtId) :
    dlookup l q = none ↔ q ∉ l.map Prod.fst := by
  induction l with
  | nil => simp [dlookup]
  | cons p t ih =>
    by_cases hp : p.1 = q
    · simp [dlookup, hp]
    · simp [dlookup, hp, ih, Ne.symm hp]

theorem dlookup_isSome_iff {β : Type} (l : List (CrdtId × β)) (q : CrdtId) :
    (dlookup l q).isSome = true ↔ q ∈ l.map Prod.fst := by
  rw [Option.isSome_iff_ne_none]
  constructor
  · intro h
    by_contra hq
    exact h ((dlookup_eq_none_iff l q).2 hq)
  · intro h hn
    exact ((dlookup_eq_none_iff l q).1 hn) h

theorem mem_of_dlookup {β : Type} {l : List (CrdtId × β)} {q : CrdtId} {v : β}
    (h : dlookup l q = some v) : (q, v) ∈ l := by
  induction l with
  | nil => simp [dlookup] at h
  | cons p t ih =>
    by_cases hp : p.1 = q
    · simp [dlookup, hp] at h
      cases p with
      | mk a b =>
        simp at hp h
        subst hp
        subst h
        exact List.mem_cons_self _ _
    · simp [dlookup, hp] at h
      exact List.mem_cons_of_mem _ (ih h)

theorem keys_dset_of_some {β : Type} {l : List (CrdtId × β)} {k : CrdtId} (v : β)
    (h : (dlookup l k).isSome) : (dset l k v).map Prod.fst = l.map Prod.fst := by
  induction l with
  | nil => simp [dlookup] at h
  | cons p t ih =>
    by_cases hp : p.1 = k
    · simp [dset, hp]
    · simp [dlookup, hp] at h
      simp [dset, hp, ih h]

theorem length_dset_of_some {β : Type} {l : List (CrdtId × β)} {k : CrdtId} (v : β)
    (h : (dlookup l k).isSome) : (dset l k v).length = l.length := by
  have := keys_dset_of_some (l := l) (k := k) v h
  have h1 : ((dset l k v).map Prod.fst).length = (l.map Prod.fst).length := by rw [this]
  simpa using h1

theorem dlookup_map_val {β γ : Type} (l : List (CrdtId × β)) (f : β → γ) (q : CrdtId) :
    dlookup (l.map fun p => (p.1, f p.2)) q = (dlookup l q).map f := by
  induction l with
  | nil => simp [dlookup]
  | cons p t ih =>
    by_cases hp : p.1 = q
    · simp [dlookup, hp]
    · simp [dlookup, hp, ih]

theorem dsetdefault_of_some {β : Type} {l : List (CrdtId × β)} {q : CrdtId} (v : β)
    (h : (dlookup l q).isSome) : dsetdefault l q v = l := by
  simp [dsetdefault, h]

theorem dsetdefault_of_none {β : Type} {l : List (CrdtId × β)} {q : CrdtId} (v : β)
    (h : dlookup l q = none) : dsetdefault l q v = l ++ [(q, v)] := by
  simp [dsetdefault, h]

theorem dlookup_dsetdefault_ne {β : Type} (l : List (CrdtId × β)) (k q : CrdtId)
    (v : β) (h : k ≠ q) : dlookup (dsetdefault l k v) q = dlookup l q := by
  unfold dsetdefault
  cases hs : dlookup l k with
  | some w => simp
  | none =>
    simp only [hs, Option.isSome_none, Bool.false_eq_true, if_false]
    rw [dlookup_append]
    cases hq : dlookup l q with
    | some w => simp
    | none => simp [dlookup, h]

theorem getD_dsetdefault_self {β : Type} (l : List (CrdtId × β)) (k : CrdtId)
    (v : β) : (dlookup (dsetdefault l k v) k).getD v = (dlookup l k).getD v := by
  unfold dsetdefault
  cases hs : dlookup l k with
  | some w => simp [hs]
  | none =>
    simp only [hs, Option.isSome_none, Bool.false_eq_true, if_false]
    rw [dlookup_append]
    simp [hs, dlookup]

theorem dlookup_dsetdefault_isSome {β : Type} (l : List (CrdtId × β)) (k q : CrdtId)
    (v : β) (h : (dlookup l q).isSome) :
    dlookup (dsetdefault l k v) q = dlookup l q := by
  unfold dsetdefault
  cases hs : dlookup l k with
  | some w => simp
  | none =>
    simp only [hs, Option.isSome_none, Bool.false_eq_true, if_false]
    rw [dlookup_append]
    cases hq : dlookup l q with
    | some w => simp
    | none => simp [hq] at h

/-- C5: the `apply_insert` contract.  When `after` is not a key of `nodes` the
call returns false and leaves the store unchanged; when `id` is already a key
it returns true and leaves the store unchanged; otherwise it stores a fresh
non-deleted node carrying the given id, parent and character, leaves every
other node entry unchanged, replaces `children[after]` by its old value with
`id` appended and re-sorted in descending OpId order (a sorted list), and
returns true. -/
theorem claim5_apply_insert_contract (s : Store) (parent node_id : CrdtId)
    (text : String) :
    ((dlookup s.nodes parent).isNone →
      apply_insert s parent node_id text = (s, false)) ∧
    ((dlookup s.nodes parent).isSome → (dlookup s.nodes node_id).isSome →
      apply_insert s parent node_id text = (s, true)) ∧
    ((dlookup s.nodes parent).isSome → dlookup s.nodes node_id = none →
      (apply_insert s parent node_id text).2 = true ∧
      dlookup (apply_insert s parent node_id text).1.nodes node_id =
        some ⟨node_id, parent, text, false⟩ ∧
      (∀ q, q ≠ node_id →
        dlookup (apply_insert s parent node_id text).1.nodes q =
          dlookup s.nodes q) ∧
      dlookup (apply_insert s parent node_id text).1.children parent =
        some (sortDesc ((dlookup s.children parent).getD [] ++ [node_id])) ∧
      List.Sorted descRel
        (sortDesc ((dlookup s.children parent).getD [] ++ [node_id]))) := by
  refine ⟨fun h1 => ?_, fun h1 h2 => ?_, fun h1 h2 => ?_⟩
  · simp [apply_insert, h1]
  · have h1' : ¬ (dlookup s.nodes parent).isNone = true := by
      simp [Option.isNone_iff_eq_none]
      intro hn
      simp [hn] at h1
    simp [apply_insert, h1', h2]
  · have h1' : ¬ (dlookup s.nodes parent).isNone = true := by
      simp [Option.isNone_iff_eq_none]
      intro hn
      simp [hn] at h1
    have h2' : ¬ (dlookup s.nodes node_id).isSome = true := by
      simp [h2]
    have hpn : parent ≠ node_id := by
      intro he
      rw [he, h2] at h1
      simp at h1
    refine ⟨?_, ?_, ?_, ?_, sortDesc_sorted _⟩
    · simp [apply_insert, h1', h2']
    · simp only [apply_insert, h1', h2', if_false, Bool.false_eq_true]
      exact dlookup_dset_self _ _ _
    · intro q hq
      simp only [apply_insert, h1', h2', if_false, Bool.false_eq_true]
      exact dlookup_dset_ne _ _ _ _ (Ne.symm hq)
    · simp only [apply_insert, h1', h2', if_false, Bool.false_eq_true]
      rw [dlookup_dsetdefault_ne _ _ _ _ (Ne.symm hpn)]
      rw [dlookup_dset_self]
      rw [getD_dsetdefault_self]

/-- C6: the `apply_delete` contract and idempotence.  `apply_delete` returns
false with the store unchanged exactly when `id` is not a key of `nodes`;
on a store containing HEAD, `apply_delete HEAD` returns true and changes
nothing; a present non-HEAD node has its `deleted` flag set to true (return
true, nothing else changed); re-applying `apply_delete`, or re-applying an
`apply_insert` that already returned true, leaves the store unchanged. -/
theorem claim6_apply_delete_contract (s : Store) (node_id parent : CrdtId)
    (text : String) :
    ((apply_delete s node_id = (s, false)) ↔ dlookup s.nodes node_id = none) ∧
    ((dlookup s.nodes HEAD).isSome → apply_delete s HEAD = (s, true)) ∧
    (∀ n, dlookup s.nodes node_id = some n → node_id ≠ HEAD →
      apply_delete s node_id =
        ({ s with nodes := dset s.nodes node_id { n with deleted := true } },
          true)) ∧
    ((apply_delete (apply_delete s node_id).1 node_id).1 =
      (apply_delete s node_id).1) ∧
    ((apply_insert s parent node_id text).2 = true →
      apply_insert (apply_insert s parent node_id text).1 parent node_id text =
        ((apply_insert s parent node_id text).1, true)) := by
  refine ⟨?_, ?_, ?_, ?_, ?_⟩
  · constructor
    · intro h
      cases hl : dlookup s.nodes node_id with
      | none => rfl
      | some n =>
        exfalso
        by_cases hh : node_id = HEAD
        · subst hh
          rw [apply_delete] at h
          simp [hl] at h
        · rw [apply_delete] at h
          simp [hl, hh] at h
    · intro h
      simp [apply_delete, h]
  · intro h
    rw [Option.isSome_iff_exists] at h
    obtain ⟨n, hn⟩ := h
    simp [apply_delete, hn]
  · intro n hn hne
    simp [apply_delete, hn, hne]
  · cases hl : dlookup s.nodes node_id with
    | none => simp [apply_delete, hl]
    | some n =>
      by_cases hh : node_id = HEAD
      · subst hh
        simp [apply_delete, hl]
      · simp only [apply_delete, hl, hh, if_false]
        have hl2 : dlookup (dset s.nodes node_id { n with deleted := true })
            node_id = some { n with deleted := true } := dlookup_dset_self _ _ _
        simp only [hl2, hh, if_false]
        have : ({ n with deleted := true } : Node) =
            { { n with deleted := true } with deleted := true } := by
          cases n
          rfl
        simp [dset_dset, ← this]
  · intro hsucc
    by_cases h1 : (dlookup s.nodes parent).isNone
    · rw [apply_insert] at hsucc
      simp [h1] at hsucc
    · by_cases h2 : (dlookup s.nodes node_id).isSome
      · have : apply_insert s parent node_id text = (s, true) := by
          simp [apply_insert, h1, h2]
        rw [this]
        simp [apply_insert, h1, h2]
      · have hpn : parent ≠ node_id := by
          intro he
          cases hl : dlookup s.nodes parent with
          | none => exact h1 (by simp [hl])
          | some w => exact h2 (by rw [← he, hl]; rfl)
        have hnodes : (apply_insert s parent node_id text).1.nodes =
            dset s.nodes node_id ⟨node_id, parent, text, false⟩ := by
          simp [apply_insert, h1, h2]
        cases hlp : dlookup s.nodes parent with
        | none => exact absurd (by simp [hlp]) h1
        | some w =>
          have hparent : dlookup (apply_insert s parent node_id text).1.nodes
              parent = some w := by
            rw [hnodes, dlookup_dset_ne _ _ _ _ (Ne.symm hpn), hlp]
          have hid : dlookup (apply_insert s parent node_id text).1.nodes
              node_id = some ⟨node_id, parent, text, false⟩ := by
            rw [hnodes, dlookup_dset_self]
          rw [apply_insert]
          simp [hparent, hid]

theorem clockStep_le (n : Nat) (e : ClockEvent) : n ≤ clockStep n e := by
  cases e with
  | tick => simp [clockStep]
  | observe c => simp [clockStep]

theorem le_foldl_clock (n : Nat) (l : List ClockEvent) :
    n ≤ List.foldl clockStep n l := by
  induction l generalizing n with
  | nil => simp
  | cons e t ih => exact le_trans (clockStep_le n e) (ih _)

theorem foldl_clock_mono {n m : Nat} (l : List ClockEvent) (h : n ≤ m) :
    List.foldl clockStep n l ≤ List.foldl clockStep m l := by
  induction l generalizing n m with
  | nil => simpa
  | cons e t ih =>
    refine ih ?_
    cases e with
    | tick => simpa [clockStep]
    | observe c => simp [clockStep]; omega

/-- C7: Lamport monotonicity.  Along any sequence of `next_op_id` calls
(`tick`) and remote observations (`_update_lamport_clock`), the counter is
non-decreasing (any extension of the event list can only raise it), and once
a remote counter `c` has been observed, a later `next_op_id` returns a
counter strictly greater than `c`. -/
theorem claim7_lamport_monotonicity (n c : Nat) (l₁ l₂ : List ClockEvent)
    (client : String) :
    List.foldl clockStep n l₁ ≤ List.foldl clockStep n (l₁ ++ l₂) ∧
    c < (nextOpId
      (List.foldl clockStep n (l₁ ++ ClockEvent.observe c :: l₂)) client).1.1 := by
  constructor
  · rw [List.foldl_append]
    exact le_foldl_clock _ _
  · rw [List.foldl_append]
    have h1 : c ≤ (List.foldl clockStep n l₁).max c := Nat.le_max_right _ _
    have h2 : c ≤ List.foldl clockStep
        (clockStep (List.foldl clockStep n l₁) (ClockEvent.observe c)) l₂ := by
      refine le_trans h1 ?_
      exact le_foldl_clock _ _
    simp only [List.foldl_cons] at *
    simp [nextOpId]
    omega

theorem applyOpB_false_store {s : Store} {op : Op}
    (h : (applyOpB s op).2 = false) : (applyOpB s op).1 = s := by
  cases op with
  | insert parent node_id text =>
    by_cases h1 : (dlookup s.nodes parent).isNone
    · simp [applyOpB, apply_insert, h1]
    · by_cases h2 : (dlookup s.nodes node_id).isSome
      · simp [applyOpB, apply_insert, h1, h2] at h
      · simp [applyOpB, apply_insert, h1, h2] at h
  | delete node_id =>
    cases hl : dlookup s.nodes node_id with
    | none => simp [applyOpB, apply_delete, hl]
    | some n =>
      by_cases hh : node_id = HEAD
      · subst hh
        simp [applyOpB, apply_delete, hl] at h
      · simp [applyOpB, apply_delete, hl, hh] at h

theorem flushPass_no_progress {s : Store} {p : List Op}
    (h : (flushPass s p).2.2 = false) :
    (flushPass s p).1 = s ∧ (flushPass s p).2.1 = p ∧
      ∀ op ∈ p, (applyOpB s op).2 = false := by
  induction p generalizing s with
  | nil => simp [flushPass]
  | cons op rest ih =>
    by_cases hop : (applyOpB s op).2 = true
    · rw [flushPass] at h
      simp [hop] at h
    · have hop' : (applyOpB s op).2 = false := by
        cases hb : (applyOpB s op).2
        · rfl
        · exact absurd hb hop
      have hst : (applyOpB s op).1 = s := applyOpB_false_store hop'
      rw [flushPass] at h ⊢
      simp only [hop', Bool.false_eq_true, if_false, hst] at h ⊢
      obtain ⟨a, b, c⟩ := ih h
      refine ⟨a, by simp [b], ?_⟩
      intro x hx
      rcases List.mem_cons.1 hx with hx | hx
      · subst hx
        exact hop'
      · exact c x hx

theorem flushPass_length {s : Store} {p : List Op} :
    (flushPass s p).2.1.length ≤ p.length ∧
      ((flushPass s p).2.2 = true → (flushPass s p).2.1.length < p.length) := by
  induction p generalizing s with
  | nil => simp [flushPass]
  | cons op rest ih =>
    by_cases hop : (applyOpB s op).2 = true
    · rw [flushPass]
      simp only [hop, if_true]
      have := (ih (s := (applyOpB s op).1)).1
      constructor
      · simp
        omega
      · intro _
        simp
        omega
    · have hop' : (applyOpB s op).2 = false := by
        cases hb : (applyOpB s op).2
        · rfl
        · exact absurd hb hop
      rw [flushPass]
      simp only [hop', Bool.false_eq_true, if_false]
      have h1 := (ih (s := (applyOpB s op).1)).1
      have h2 := (ih (s := (applyOpB s op).1)).2
      constructor
      · simp
        omega
      · intro hpr
        simp only [List.length_cons]
        have := h2 hpr
        simp
        omega

theorem flushLoop_spec (fuel : Nat) :
    ∀ (s : Store) (p : List Op), p.length < fuel →
      (flushLoop s p fuel).2.2 ≤ p.length ∧
        (flushPass (flushLoop s p fuel).1 (flushLoop s p fuel).2.1).2.2 = false := by
  induction fuel with
  | zero =>
    intro s p h
    omega
  | succ f ih =>
    intro s p h
    by_cases hpr : (flushPass s p).2.2 = true
    · have hlt : (flushPass s p).2.1.length < p.length :=
        (flushPass_length (s := s) (p := p)).2 hpr
      have hrec := ih (flushPass s p).1 (flushPass s p).2.1 (by omega)
      rw [flushLoop]
      simp only [hpr, if_true]
      exact ⟨by omega, hrec.2⟩
    · have hpr' : (flushPass s p).2.2 = false := by
        cases hb : (flushPass s p).2.2
        · rfl
        · exact absurd hb hpr
      rw [flushLoop]
      simp only [hpr', Bool.false_eq_true, if_false]
      obtain ⟨hs, hp, _⟩ := flushPass_no_progress hpr'
      refine ⟨by omega, ?_⟩
      rw [hs, hp]
      exact hpr'

/-- C9: termination of the pending-buffer flush.  The `while made_progress`
loop of `_flush_pending_ops`, run with fuel `pending.length + 1`, reaches a
fixpoint: the number of productive passes (each removes at least one
buffered op) is at most the initial buffer length, one further pass over the
final buffer makes no progress, and every op left in the final buffer still
fails to apply against the final store. -/
theorem claim9_flush_terminates (s : Store) (p : List Op) :
    (flushPending s p).2.2 ≤ p.length ∧
    (flushPass (flushPending s p).1 (flushPending s p).2.1).2.2 = false ∧
    ∀ op ∈ (flushPending s p).2.1,
      (applyOpB (flushPending s p).1 op).2 = false := by
  unfold flushPending
  by_cases hp : p.isEmpty
  · have : p = [] := List.isEmpty_iff.1 hp
    subst this
    simp [flushPass]
  · simp only [hp, Bool.false_eq_true, if_false]
    have h := flushLoop_spec (p.length + 1) s p (by omega)
    refine ⟨h.1, h.2, ?_⟩
    exact (flushPass_no_progress h.2).2.2

theorem flushPending_complete (s : Store) (p : List Op) :
    ∀ op ∈ (flushPending s p).2.1,
      (applyOpB (flushPending s p).1 op).2 = false := by
  unfold flushPending
  by_cases hp : p.isEmpty
  · have : p = [] := List.isEmpty_iff.1 hp
    subst this
    simp
  · simp only [hp, Bool.false_eq_true, if_false]
    have h := flushLoop_spec (p.length + 1) s p (by omega)
    exact (flushPass_no_progress h.2).2.2

/-- C2 counterexample: the remote-delete handler does not flush the pending
buffer.  On an editor whose buffer holds one immediately applicable insert,
a remote delete of HEAD is applied successfully (`apply_delete` returns
true), yet the buffered insert — which `apply_insert` would accept, and
which a flush would therefore apply and remove — is still in the buffer
afterwards. -/
theorem claim2_counterexample :
    (applyRemoteDelete ⟨initStore, [Op.insert HEAD (1, "B") "x"], 0⟩ HEAD).pending
        = [Op.insert HEAD (1, "B") "x"] ∧
    (apply_delete initStore HEAD).2 = true ∧
    (apply_insert initStore HEAD (1, "B") "x").2 = true ∧
    (flushPending initStore [Op.insert HEAD (1, "B") "x"]).2.1 = [] := by
  decide

/-- C2 (amended): after every successfully applied remote INSERT the pending
buffer is flushed — the handler's resulting store and buffer are exactly the
flush of the post-insert store against the old buffer, and after the flush
no remaining buffered op is applicable (so any buffered op whose dependency
was just satisfied has been applied and removed within the flush).  The
remote-delete handler performs no flush (see the counterexample), which
loses nothing: a delete never adds a node, hence never satisfies a
dependency. -/
theorem claim2_flush_after_insert (e : EState) (parent node_id : CrdtId)
    (text : String)
    (h : (apply_insert e.store parent node_id text).2 = true) :
    (applyRemoteInsert e parent node_id text).store =
      (flushPending (apply_insert e.store parent node_id text).1 e.pending).1 ∧
    (applyRemoteInsert e parent node_id text).pending =
      (flushPending (apply_insert e.store parent node_id text).1 e.pending).2.1 ∧
    ∀ op ∈ (applyRemoteInsert e parent node_id text).pending,
      (applyOpB (applyRemoteInsert e parent node_id text).store op).2 = false := by
  have hst : (applyRemoteInsert e parent node_id text).store =
      (flushPending (apply_insert e.store parent node_id text).1 e.pending).1 := by
    unfold applyRemoteInsert
    simp [h]
  have hpd : (applyRemoteInsert e parent node_id text).pending =
      (flushPending (apply_insert e.store parent node_id text).1 e.pending).2.1 := by
    unfold applyRemoteInsert
    simp [h]
  refine ⟨hst, hpd, ?_⟩
  rw [hst, hpd]
  exact flushPending_complete _ _

/-- C2 witness: a concrete run of the amended theorem.  The buffer holds a
delete whose target never arrives; a successful remote insert flushes, the
orphan delete remains buffered and is indeed still inapplicable. -/
theorem claim2_flush_after_insert_witness :
    (applyOpB
      (applyRemoteInsert ⟨initStore, [Op.delete (9, "Z")], 0⟩ HEAD (1, "A") "x").store
      (Op.delete (9, "Z"))).2 = false :=
  (claim2_flush_after_insert ⟨initStore, [Op.delete (9, "Z")], 0⟩ HEAD (1, "A") "x"
    (by decide)).2.2 (Op.delete (9, "Z")) (by decide)

/-- C5 witness: the fresh-insert case of the contract run on the empty store. -/
theorem claim5_apply_insert_contract_witness :
    (apply_insert initStore HEAD (1, "A") "x").2 = true ∧
    dlookup (apply_insert initStore HEAD (1, "A") "x").1.nodes (1, "A") =
      some ⟨(1, "A"), HEAD, "x", false⟩ ∧
    dlookup (apply_insert initStore HEAD (1, "A") "x").1.children HEAD =
      some (sortDesc ((dlookup initStore.children HEAD).getD [] ++ [(1, "A")])) := by
  have h := (claim5_apply_insert_contract initStore HEAD (1, "A") "x").2.2
    (by decide) (by decide)
  exact ⟨h.1, h.2.1, h.2.2.2.1⟩

/-- C6 witness: deleting HEAD is a true-returning no-op, and deleting a real
node twice equals deleting it once, on a concrete one-character store. -/
theorem claim6_apply_delete_contract_witness :
    apply_delete (apply_insert initStore HEAD (1, "A") "x").1 HEAD =
      ((apply_insert initStore HEAD (1, "A") "x").1, true) ∧
    (apply_delete (apply_delete (apply_insert initStore HEAD (1, "A") "x").1
        (1, "A")).1 (1, "A")).1 =
      (apply_delete (apply_insert initStore HEAD (1, "A") "x").1 (1, "A")).1 := by
  have h := claim6_apply_delete_contract (apply_insert initStore HEAD (1, "A") "x").1
    (1, "A") HEAD "x"
  have hb := claim6_apply_delete_contract (apply_insert initStore HEAD (1, "A") "x").1
    HEAD HEAD "x"
  exact ⟨hb.2.1 (by decide), h.2.2.2.1⟩

/-- Index of the first occurrence of an id in a key list (used to rank the
nodes by insertion order). -/
def posIn : List CrdtId → CrdtId → Nat
  | [], _ => 0
  | x :: t, q => if x = q then 0 else posIn t q + 1

theorem posIn_lt_length {l : List CrdtId} {q : CrdtId} (h : q ∈ l) :
    posIn l q < l.length := by
  induction l with
  | nil => simp at h
  | cons x t ih =>
    by_cases hx : x = q
    · simp [posIn, hx]
    · rcases List.mem_cons.1 h with h' | h'
      · exact absurd h'.symm hx
      · simp only [posIn, hx, if_false, List.length_cons]
        exact Nat.succ_lt_succ (ih h')

theorem posIn_append_of_mem {l : List CrdtId} {q : CrdtId} (m : List CrdtId)
    (h : q ∈ l) : posIn (l ++ m) q = posIn l q := by
  induction l with
  | nil => simp at h
  | cons x t ih =>
    by_cases hx : x = q
    · simp [posIn, hx]
    · rcases List.mem_cons.1 h with h' | h'
      · exact absurd h'.symm hx
      · simp [posIn, hx, ih h']

theorem posIn_append_of_not_mem {l : List CrdtId} {q : CrdtId} (m : List CrdtId)
    (h : q ∉ l) : posIn (l ++ m) q = l.length + posIn m q := by
  induction l with
  | nil => simp
  | cons x t ih =>
    have hx : x ≠ q := fun he => h (he ▸ List.mem_cons_self _ _)
    have ht : q ∉ t := fun hm => h (List.mem_cons_of_mem _ hm)
    simp [posIn, hx, ih ht]
    omega

theorem mem_sortDesc {l : List CrdtId} {q : CrdtId} : q ∈ sortDesc l ↔ q ∈ l :=
  (sortDesc_perm l).mem_iff

theorem nodup_sortDesc {l : List CrdtId} (h : l.Nodup) : (sortDesc l).Nodup :=
  ((sortDesc_perm l).nodup_iff).2 h

/-- Well-formedness of a store: holds for every reachable store and packages
the structural invariants that the source maintains: unique keys, the HEAD
sentinel, node records keyed by their own id, `children` defined exactly on
the node ids, child lists that are duplicate-free, sorted descending lists
of exactly the non-HEAD nodes anchored at the parent, and parents inserted
strictly before their children (which bounds every `after` chain). -/
structure WF (s : Store) : Prop where
  nodupKeys : (s.nodes.map Prod.fst).Nodup
  nodupChKeys : (s.children.map Prod.fst).Nodup
  headNode : dlookup s.nodes HEAD = some ⟨HEAD, HEAD, "", false⟩
  idConsistent : ∀ q n, dlookup s.nodes q = some n → n.id = q
  chDomain : ∀ q, (dlookup s.children q).isSome = (dlookup s.nodes q).isSome
  chEntries : ∀ q l c, dlookup s.children q = some l → c ∈ l →
    c ≠ HEAD ∧ ∃ n, dlookup s.nodes c = some n ∧ n.after = q
  chComplete : ∀ q n, dlookup s.nodes q = some n → q ≠ HEAD →
    ∃ l, dlookup s.children n.after = some l ∧ q ∈ l
  chNodup : ∀ q l, dlookup s.children q = some l → l.Nodup
  chSorted : ∀ q l, dlookup s.children q = some l → List.Sorted descRel l
  afterRank : ∀ q n, dlookup s.nodes q = some n → q ≠ HEAD →
    n.after ∈ s.nodes.map Prod.fst ∧
      posIn (s.nodes.map Prod.fst) n.after < posIn (s.nodes.map Prod.fst) q

theorem wf_initStore : WF initStore := by
  refine ⟨?_, ?_, ?_, ?_, ?_, ?_, ?_, ?_, ?_, ?_⟩
  · simp [initStore]
  · simp [initStore]
  · simp [initStore, dlookup]
  · intro q n h
    simp [initStore, dlookup] at h
    obtain ⟨h1, h2⟩ := h
    simp [← h1, ← h2]
  · intro q
    by_cases hq : HEAD = q <;> simp [initStore, dlookup, hq]
  · intro q l c hl hc
    simp [initStore, dlookup] at hl
    rcases hl with ⟨_, hl⟩
    subst hl
    simp at hc
  · intro q n h hq
    simp [initStore, dlookup] at h
    exact absurd h.1.symm hq
  · intro q l hl
    simp [initStore, dlookup] at hl
    rcases hl with ⟨_, hl⟩
    subst hl
    simp
  · intro q l hl
    simp [initStore, dlookup] at hl
    rcases hl with ⟨_, hl⟩
    subst hl
    simp
  · intro q n h hq
    simp [initStore, dlookup] at h
    exact absurd h.1.symm hq

theorem mem_keys_of_dlookup {β : Type} {l : List (CrdtId × β)} {q : CrdtId} {v : β}
    (h : dlookup l q = some v) : q ∈ l.map Prod.fst :=
  (dlookup_isSome_iff l q).1 (by simp [h])

theorem not_mem_keys_of_dlookup_none {β : Type} {l : List (CrdtId × β)} {q : CrdtId}
    (h : dlookup l q = none) : q ∉ l.map Prod.fst :=
  (dlookup_eq_none_iff l q).1 h

/-- Explicit form of the fresh-insert branch of `apply_insert`. -/
theorem apply_insert_fresh_eq {s : Store} {parent node_id : CrdtId} {text : String}
    {chp : List CrdtId}
    (h1 : dlookup s.children parent = some chp)
    (h1n : (dlookup s.nodes parent).isSome)
    (h2 : dlookup s.nodes node_id = none)
    (h2c : dlookup s.children node_id = none) :
    (apply_insert s parent node_id text).1 =
      { nodes := s.nodes ++ [(node_id, ⟨node_id, parent, text, false⟩)],
        children :=
          dset s.children parent (sortDesc (chp ++ [node_id])) ++
            [(node_id, [])] } ∧
    (apply_insert s parent node_id text).2 = true := by
  have hpn : parent ≠ node_id := by
    intro he
    rw [he, h2] at h1n
    simp at h1n
  have hnn : ¬ (dlookup s.nodes parent).isNone = true := by
    cases hl : dlookup s.nodes parent with
    | none => rw [hl] at h1n; simp at h1n
    | some w => simp [hl]
  have hns : ¬ (dlookup s.nodes node_id).isSome = true := by simp [h2]
  have e1 : dsetdefault s.children parent [] = s.children :=
    dsetdefault_of_some _ (by simp [h1])
  have e2 : dset s.nodes node_id (⟨node_id, parent, text, false⟩ : Node) =
      s.nodes ++ [(node_id, ⟨node_id, parent, text, false⟩)] :=
    dset_of_lookup_none _ h2
  have e3 : dlookup (dset s.children parent
      (sortDesc ((dlookup s.children parent).getD [] ++ [node_id]))) node_id =
      none := by
    rw [dlookup_dset_ne _ _ _ _ hpn, h2c]
  constructor
  · rw [apply_insert]
    simp only [hnn, hns, if_false, Bool.false_eq_true]
    rw [e1]
    rw [e2]
    rw [dsetdefault_of_none _ e3]
    rw [h1]
    rfl
  · rw [apply_insert]
    simp [hnn, hns]

theorem wf_apply_insert {s : Store} (wf : WF s) (parent node_id : CrdtId)
    (text : String) : WF (apply_insert s parent node_id text).1 := by
  by_cases hb1 : (dlookup s.nodes parent).isNone
  · rw [apply_insert]
    simp only [hb1, if_true]
    exact wf
  · by_cases hb2 : (dlookup s.nodes node_id).isSome
    · rw [apply_insert]
      simp only [hb1, hb2, if_false, if_true, Bool.false_eq_true]
      exact wf
    · have h1n : (dlookup s.nodes parent).isSome := by
        cases hl : dlookup s.nodes parent with
        | none => rw [hl] at hb1; simp at hb1
        | some w => rfl
      have h2 : dlookup s.nodes node_id = none := by
        cases hl : dlookup s.nodes node_id with
        | none => rfl
        | some w => rw [hl] at hb2; simp at hb2
      have h1c : (dlookup s.children parent).isSome := by
        rw [wf.chDomain]
        exact h1n
      obtain ⟨chp, h1⟩ := Option.isSome_iff_exists.1 h1c
      have h2c : dlookup s.children node_id = none := by
        cases hl : dlookup s.children node_id with
        | none => rfl
        | some w =>
          have : (dlookup s.nodes node_id).isSome = true := by
            rw [← wf.chDomain, hl]
            rfl
          rw [h2] at this
          simp at this
      obtain ⟨heq, _⟩ := apply_insert_fresh_eq h1 h1n h2 h2c
      rw [heq]
      set NEW : Node := ⟨node_id, parent, text, false⟩ with hNEW
      set L : List CrdtId := sortDesc (chp ++ [node_id]) with hL
      have hpn : parent ≠ node_id := by
        intro he
        rw [he, h2] at h1n
        simp at h1n
      have hnidmem : node_id ∉ s.nodes.map Prod.fst :=
        not_mem_keys_of_dlookup_none h2
      have hnH : node_id ≠ HEAD := by
        intro he
        rw [he] at h2
        rw [wf.headNode] at h2
        simp at h2
      have hchpmem : ∀ c ∈ chp, c ∈ s.nodes.map Prod.fst := by
        intro c hc
        obtain ⟨_, n, hn, _⟩ := wf.chEntries parent chp c h1 hc
        exact mem_keys_of_dlookup hn
      have hnidchp : node_id ∉ chp := fun hc => hnidmem (hchpmem _ hc)
      have lookN1 : dlookup (s.nodes ++ [(node_id, NEW)]) node_id = some NEW := by
        rw [dlookup_append, h2]
        simp [dlookup]
      have lookN2 : ∀ q, q ≠ node_id →
          dlookup (s.nodes ++ [(node_id, NEW)]) q = dlookup s.nodes q := by
        intro q hq
        rw [dlookup_append]
        cases hl : dlookup s.nodes q with
        | some w => rfl
        | none => simp [dlookup, Ne.symm hq]
      have lookC1 : dlookup (dset s.children parent L ++ [(node_id, [])]) parent =
          some L := by
        rw [dlookup_append, dlookup_dset_self]
      have lookC2 : dlookup (dset s.children parent L ++ [(node_id, [])]) node_id =
          some [] := by
        rw [dlookup_append, dlookup_dset_ne _ _ _ _ hpn, h2c]
        simp [dlookup]
      have lookC3 : ∀ q, q ≠ parent → q ≠ node_id →
          dlookup (dset s.children parent L ++ [(node_id, [])]) q =
            dlookup s.children q := by
        intro q hq1 hq2
        rw [dlookup_append, dlookup_dset_ne _ _ _ _ (Ne.symm hq1)]
        cases hl : dlookup s.children q with
        | some w => rfl
        | none => simp [dlookup, Ne.symm hq2]
      have memL : ∀ c, c ∈ L ↔ (c ∈ chp ∨ c = node_id) := by
        intro c
        rw [hL, mem_sortDesc]
        simp
      refine ⟨?_, ?_, ?_, ?_, ?_, ?_, ?_, ?_, ?_, ?_⟩
      · simp only [List.map_append, List.map_cons, List.map_nil]
        refine List.Nodup.append wf.nodupKeys (by simp) ?_
        intro a ha hb
        simp at hb
        subst hb
        exact hnidmem ha
      · simp only [List.map_append, List.map_cons, List.map_nil]
        rw [keys_dset_of_some _ (by simp [h1])]
        refine List.Nodup.append wf.nodupChKeys (by simp) ?_
        intro a ha hb
        simp at hb
        subst hb
        exact (not_mem_keys_of_dlookup_none h2c) ha
      · rw [lookN2 HEAD (Ne.symm hnH)]
        exact wf.headNode
      · intro q n hq
        by_cases hqn : q = node_id
        · subst hqn
          rw [lookN1, Option.some_inj] at hq
          subst hq
          rfl
        · rw [lookN2 q hqn] at hq
          exact wf.idConsistent q n hq
      · intro q
        by_cases hqn : q = node_id
        · subst hqn
          rw [lookN1, lookC2]
          rfl
        · by_cases hqp : q = parent
          · subst hqp
            rw [lookC1, lookN2 q hqn]
            simp [h1n]
          · rw [lookC3 q hqp hqn, lookN2 q hqn]
            exact wf.chDomain q
      · intro q l c hql hcl
        by_cases hqn : q = node_id
        · subst hqn
          rw [lookC2] at hql
          cases hql
          simp at hcl
        · by_cases hqp : q = parent
          · subst hqp
            rw [lookC1] at hql
            cases hql
            rcases (memL c).1 hcl with hc | hc
            · obtain ⟨hcH, n, hn, hna⟩ := wf.chEntries q chp c h1 hc
              have hcn : c ≠ node_id := fun he =>
                hnidmem (he ▸ mem_keys_of_dlookup hn)
              exact ⟨hcH, n, by rw [lookN2 c hcn]; exact hn, hna⟩
            · subst hc
              exact ⟨hnH, NEW, lookN1, rfl⟩
          · rw [lookC3 q hqp hqn] at hql
            obtain ⟨hcH, n, hn, hna⟩ := wf.chEntries q l c hql hcl
            have hcn : c ≠ node_id := fun he =>
              hnidmem (he ▸ mem_keys_of_dlookup hn)
            exact ⟨hcH, n, by rw [lookN2 c hcn]; exact hn, hna⟩
      · intro q n hq hqH
        by_cases hqn : q = node_id
        · subst hqn
          rw [lookN1, Option.some_inj] at hq
          subst hq
          refine ⟨L, ?_, ?_⟩
          · exact lookC1
          · rw [memL]
            right
            rfl
        · rw [lookN2 q hqn] at hq
          obtain ⟨l, hl, hql⟩ := wf.chComplete q n hq hqH
          by_cases hap : n.after = parent
          · rw [hap, h1] at hl
            cases hl
            refine ⟨L, by rw [hap]; exact lookC1, ?_⟩
            rw [memL]
            left
            exact hql
          · have han : n.after ≠ node_id := by
              intro he
              have := (wf.afterRank q n hq hqH).1
              rw [he] at this
              exact hnidmem this
            refine ⟨l, ?_, hql⟩
            rw [lookC3 _ hap han]
            exact hl
      · intro q l hql
        by_cases hqn : q = node_id
        · subst hqn
          rw [lookC2] at hql
          cases hql
          simp
        · by_cases hqp : q = parent
          · subst hqp
            rw [lookC1] at hql
            cases hql
            refine nodup_sortDesc ?_
            refine List.Nodup.append (wf.chNodup _ chp h1) (by simp) ?_
            intro a ha hb
            simp at hb
            subst hb
            exact hnidchp ha
          · rw [lookC3 q hqp hqn] at hql
            exact wf.chNodup q l hql
      · intro q l hql
        by_cases hqn : q = node_id
        · subst hqn
          rw [lookC2] at hql
          cases hql
          simp
        · by_cases hqp : q = parent
          · subst hqp
            rw [lookC1] at hql
            cases hql
            exact sortDesc_sorted _
          · rw [lookC3 q hqp hqn] at hql
            exact wf.chSorted q l hql
      · intro q n hq hqH
        have keyseq : ((s.nodes ++ [(node_id, NEW)]).map Prod.fst) =
            s.nodes.map Prod.fst ++ [node_id] := by simp
        by_cases hqn : q = node_id
        · subst hqn
          rw [lookN1, Option.some_inj] at hq
          subst hq
          have hpmem : parent ∈ s.nodes.map Prod.fst := by
            obtain ⟨w, hw⟩ := Option.isSome_iff_exists.1 h1n
            exact mem_keys_of_dlookup hw
          constructor
          · rw [keyseq]
            simp only [NEW]
            exact List.mem_append_left _ hpmem
          · rw [keyseq]
            simp only [NEW]
            rw [posIn_append_of_mem _ hpmem]
            rw [posIn_append_of_not_mem _ hnidmem]
            have h5 : posIn (s.nodes.map Prod.fst) parent <
                (s.nodes.map Prod.fst).length := posIn_lt_length hpmem
            rw [List.length_map] at h5
            simp [posIn]
            omega
        · rw [lookN2 q hqn] at hq
          obtain ⟨hmem, hlt⟩ := wf.afterRank q n hq hqH
          have hqmem : q ∈ s.nodes.map Prod.fst := mem_keys_of_dlookup hq
          constructor
          · rw [keyseq]
            exact List.mem_append_left _ hmem
          · rw [keyseq]
            rw [posIn_append_of_mem _ hmem, posIn_append_of_mem _ hqmem]
            exact hlt

theorem wf_apply_delete {s : Store} (wf : WF s) (node_id : CrdtId) :
    WF (apply_delete s node_id).1 := by
  cases hl : dlookup s.nodes node_id with
  | none =>
    rw [apply_delete]
    simp only [hl]
    exact wf
  | some n =>
    by_cases hh : node_id = HEAD
    · subst hh
      rw [apply_delete]
      simp only [hl, if_true]
      exact wf
    · rw [apply_delete]
      simp only [hl, hh, if_false]
      set DN : Node := { n with deleted := true } with hDN
      have hnH : node_id ≠ HEAD := hh
      have lookN1 : dlookup (dset s.nodes node_id DN) node_id = some DN :=
        dlookup_dset_self _ _ _
      have lookN2 : ∀ q, q ≠ node_id →
          dlookup (dset s.nodes node_id DN) q = dlookup s.nodes q := by
        intro q hq
        exact dlookup_dset_ne _ _ _ _ (Ne.symm hq)
      have keyseq : ((dset s.nodes node_id DN).map Prod.fst) =
          s.nodes.map Prod.fst := keys_dset_of_some _ (by simp [hl])
      refine ⟨?_, ?_, ?_, ?_, ?_, ?_, ?_, ?_, ?_, ?_⟩
      · rw [keyseq]
        exact wf.nodupKeys
      · exact wf.nodupChKeys
      · rw [lookN2 HEAD (Ne.symm hnH)]
        exact wf.headNode
      · intro q m hq
        by_cases hqn : q = node_id
        · subst hqn
          rw [lookN1, Option.some_inj] at hq
          subst hq
          have : n.id = q := wf.idConsistent q n hl
          simp [hDN, this]
        · rw [lookN2 q hqn] at hq
          exact wf.idConsistent q m hq
      · intro q
        by_cases hqn : q = node_id
        · subst hqn
          rw [lookN1]
          have := wf.chDomain q
          rw [hl] at this
          rw [this]
          rfl
        · rw [lookN2 q hqn]
          exact wf.chDomain q
      · intro q l c hql hcl
        obtain ⟨hcH, m, hm, hma⟩ := wf.chEntries q l c hql hcl
        by_cases hcn : c = node_id
        · subst hcn
          rw [hl, Option.some_inj] at hm
          subst hm
          exact ⟨hcH, DN, lookN1, hma⟩
        · exact ⟨hcH, m, by rw [lookN2 c hcn]; exact hm, hma⟩
      · intro q m hq hqH
        by_cases hqn : q = node_id
        · subst hqn
          rw [lookN1, Option.some_inj] at hq
          subst hq
          have : DN.after = n.after := by simp [hDN]
          rw [this]
          exact wf.chComplete q n hl hqH
        · rw [lookN2 q hqn] at hq
          exact wf.chComplete q m hq hqH
      · exact wf.chNodup
      · exact wf.chSorted
      · intro q m hq hqH
        rw [keyseq]
        by_cases hqn : q = node_id
        · subst hqn
          rw [lookN1, Option.some_inj] at hq
          subst hq
          have : DN.after = n.after := by simp [hDN]
          rw [this]
          exact wf.afterRank q n hl hqH
        · rw [lookN2 q hqn] at hq
          exact wf.afterRank q m hq hqH

theorem wf_reachable {s : Store} (h : Reachable s) : WF s := by
  induction h with
  | init => exact wf_initStore
  | insert parent node_id text _ ih => exact wf_apply_insert ih parent node_id text
  | delete node_id _ ih => exact wf_apply_delete ih node_id

/-- C10: in every store reachable from the initial store by `apply_insert`
and `apply_delete`, HEAD is a key of `nodes`, its node is the untouched
sentinel (`deleted = false`), and it has a child list, so rendering and
child traversal rooted at HEAD are defined. -/
theorem claim10_head_invariant (s : Store) (h : Reachable s) :
    dlookup s.nodes HEAD = some ⟨HEAD, HEAD, "", false⟩ ∧
    (dlookup s.children HEAD).isSome = true := by
  have wf := wf_reachable h
  refine ⟨wf.headNode, ?_⟩
  rw [wf.chDomain, wf.headNode]
  rfl

/-- C10 witness: the invariant on the store that inserted one character and
deleted it again. -/
theorem claim10_head_invariant_witness :
    dlookup (apply_delete (apply_insert initStore HEAD (1, "A") "x").1
        (1, "A")).1.nodes HEAD = some ⟨HEAD, HEAD, "", false⟩ ∧
    (dlookup (apply_delete (apply_insert initStore HEAD (1, "A") "x").1
        (1, "A")).1.children HEAD).isSome = true :=
  claim10_head_invariant _
    (Reachable.delete (1, "A") (Reachable.insert HEAD (1, "A") "x" Reachable.init))

theorem dlookup_of_mem_nodup {β : Type} {l : List (CrdtId × β)} {k : CrdtId} {v : β}
    (hnd : (l.map Prod.fst).Nodup) (h : (k, v) ∈ l) : dlookup l k = some v := by
  induction l with
  | nil => simp at h
  | cons p t ih =>
    rcases List.mem_cons.1 h with h' | h'
    · rw [← h']
      simp [dlookup]
    · have hk : k ∈ t.map Prod.fst := by
        exact List.mem_map.2 ⟨(k, v), h', rfl⟩
      have hp : p.1 ≠ k := by
        intro he
        rw [List.map_cons, List.nodup_cons] at hnd
        exact hnd.1 (he ▸ hk)
      rw [List.map_cons, List.nodup_cons] at hnd
      simp only [dlookup, hp, if_false]
      exact ih hnd.2 h'

/-- The ids inserted under parent `p` by the `from_dict` loop, in entry
order: ids of the entries whose `after` is `p`, skipping self-references. -/
def chOf (es : List SnapEntry) (p : CrdtId) : List CrdtId :=
  es.filterMap fun e => if e.after = p ∧ e.id ≠ e.after then some e.id else none

/-- Whether the `from_dict` loop creates a `children` key `p`. -/
def chKey (es : List SnapEntry) (p : CrdtId) : Prop :=
  ∃ e ∈ es, e.id = p ∨ (e.after = p ∧ e.id ≠ e.after)

instance (es : List SnapEntry) (p : CrdtId) : Decidable (chKey es p) := by
  unfold chKey
  infer_instance

theorem fromDict_fold_nodes : ∀ (es : List SnapEntry) (acc : Store),
    (∀ e ∈ es, dlookup acc.nodes e.id = none) →
    (es.map SnapEntry.id).Nodup →
    (es.foldl fromDictStep acc).nodes =
      acc.nodes ++ es.map fun e => (e.id, (⟨e.id, e.after, e.text, e.deleted⟩ : Node))
  | [], acc, _, _ => by simp
  | e :: rest, acc, hfresh, hnd => by
    have hstep : (fromDictStep acc e).nodes =
        acc.nodes ++ [(e.id, (⟨e.id, e.after, e.text, e.deleted⟩ : Node))] := by
      unfold fromDictStep
      exact dset_of_lookup_none _ (hfresh e (List.mem_cons_self _ _))
    have hfresh' : ∀ e' ∈ rest, dlookup (fromDictStep acc e).nodes e'.id = none := by
      intro e' he'
      rw [hstep, dlookup_append]
      rw [hfresh e' (List.mem_cons_of_mem _ he')]
      have hne : e.id ≠ e'.id := by
        rw [List.map_cons, List.nodup_cons] at hnd
        intro hc
        exact hnd.1 (hc ▸ List.mem_map.2 ⟨e', he', rfl⟩)
      simp [dlookup, hne]
    have hnd' : (rest.map SnapEntry.id).Nodup := by
      rw [List.map_cons, List.nodup_cons] at hnd
      exact hnd.2
    rw [List.foldl_cons]
    rw [fromDict_fold_nodes rest (fromDictStep acc e) hfresh' hnd']
    rw [hstep]
    simp

theorem fromDict_fold_children : ∀ (es : List SnapEntry) (acc : Store) (p : CrdtId),
    dlookup (es.foldl fromDictStep acc).children p =
      match dlookup acc.children p with
      | some l => some (l ++ chOf es p)
      | none => if chKey es p then some (chOf es p) else none
  | [], acc, p => by
    cases hl : dlookup acc.children p <;> simp [chOf, chKey, hl]
  | e :: rest, acc, p => by
    rw [List.foldl_cons]
    rw [fromDict_fold_children rest (fromDictStep acc e) p]
    have hchof : chOf (e :: rest) p =
        (if e.after = p ∧ e.id ≠ e.after then [e.id] else []) ++ chOf rest p := by
      unfold chOf
      rw [List.filterMap_cons]
      by_cases hc : e.after = p ∧ e.id ≠ e.after
      · rw [if_pos hc, if_pos hc]
        rfl
      · rw [if_neg hc, if_neg hc]
        rfl
    have hchildren : (fromDictStep acc e).children =
        dsetdefault
          (if e.id ≠ e.after then
            dset (dsetdefault acc.children e.after [])
              e.after
              (((dlookup (dsetdefault acc.children e.after []) e.after).getD []) ++
                [e.id])
          else acc.children)
          e.id [] := by
      unfold fromDictStep
      by_cases hne : e.id ≠ e.after <;> simp [hne]
    by_cases hne : e.id ≠ e.after
    · by_cases hap : e.after = p
      · subst hap
        have hmid : dlookup (fromDictStep acc e).children e.after =
            some ((dlookup acc.children e.after).getD [] ++ [e.id]) := by
          rw [hchildren]
          rw [if_pos hne]
          rw [dlookup_dsetdefault_isSome]
          · rw [dlookup_dset_self]
            rw [getD_dsetdefault_self]
          · rw [dlookup_dset_self]
            rfl
        rw [hmid]
        cases hl : dlookup acc.children e.after with
        | some l =>
          simp only [hl, Option.getD_some]
          rw [hchof]
          simp [hne]
        | none =>
          simp only [hl, Option.getD_none]
          rw [hchof]
          have hk : chKey (e :: rest) e.after :=
            ⟨e, List.mem_cons_self _ _, Or.inr ⟨rfl, hne⟩⟩
          simp [hk, hne]
      · have hmid : dlookup (fromDictStep acc e).children p =
            if e.id = p ∧ dlookup acc.children p = none then some []
            else dlookup acc.children p := by
          rw [hchildren]
          rw [if_pos hne]
          have hinner : dlookup (dset (dsetdefault acc.children e.after [])
              e.after (((dlookup (dsetdefault acc.children e.after []) e.after).getD
                []) ++ [e.id])) p = dlookup acc.children p := by
            rw [dlookup_dset_ne _ _ _ _ hap]
            rw [dlookup_dsetdefault_ne _ _ _ _ hap]
          by_cases hip : e.id = p
          · subst hip
            cases hl : dlookup acc.children e.id with
            | some l =>
              simp only [hl]
              rw [dlookup_dsetdefault_isSome]
              · rw [hinner, hl]
                simp
              · rw [hinner, hl]
                rfl
            | none =>
              simp only [hl]
              rw [dsetdefault_of_none _ (by rw [hinner, hl])]
              rw [dlookup_append, hinner, hl]
              simp [dlookup]
          · rw [dlookup_dsetdefault_ne _ _ _ _ hip, hinner]
            simp [hip]
        rw [hmid]
        by_cases hip : e.id = p
        · cases hl : dlookup acc.children p with
          | some l =>
            simp only [hip, hl, and_false, if_false, reduceCtorEq]
            rw [hchof]
            have : ¬ (e.after = p ∧ e.id ≠ e.after) := fun hc => hap hc.1
            simp [this]
          | none =>
            simp only [hip, hl, and_true, if_true]
            have hk : chKey (e :: rest) p := ⟨e, List.mem_cons_self _ _, Or.inl hip⟩
            rw [hchof]
            have : ¬ (e.after = p ∧ e.id ≠ e.after) := fun hc => hap hc.1
            simp [hk, this]
        · simp only [hip, false_and, if_false]
          cases hl : dlookup acc.children p with
          | some l =>
            rw [hchof]
            have : ¬ (e.after = p ∧ e.id ≠ e.after) := fun hc => hap hc.1
            simp [this]
          | none =>
            rw [hchof]
            have : ¬ (e.after = p ∧ e.id ≠ e.after) := fun hc => hap hc.1
            have hkiff : chKey (e :: rest) p ↔ chKey rest p := by
              unfold chKey
              constructor
              · rintro ⟨e', he', hor⟩
                rcases List.mem_cons.1 he' with he' | he'
                · subst he'
                  rcases hor with h | h
                  · exact absurd h hip
                  · exact absurd h.1 hap
                · exact ⟨e', he', hor⟩
              · rintro ⟨e', he', hor⟩
                exact ⟨e', List.mem_cons_of_mem _ he', hor⟩
            simp only [this, if_false, List.nil_append]
            by_cases hk : chKey rest p
            · simp [hk, hkiff.2 hk]
            · have : ¬ chKey (e :: rest) p := fun hc => hk (hkiff.1 hc)
              simp [hk, this]
    · push_neg at hne
      have hmid : dlookup (fromDictStep acc e).children p =
          if e.id = p ∧ dlookup acc.children p = none then some []
          else dlookup acc.children p := by
        rw [hchildren]
        rw [if_neg (by simp [hne])]
        by_cases hip : e.id = p
        · subst hip
          cases hl : dlookup acc.children e.id with
          | some l =>
            rw [dlookup_dsetdefault_isSome _ _ _ _ (by rw [hl]; rfl), hl]
            simp [hl]
          | none =>
            rw [dsetdefault_of_none _ hl]
            rw [dlookup_append, hl]
            simp [dlookup, hl]
        · rw [dlookup_dsetdefault_ne _ _ _ _ hip]
          simp [hip]
      rw [hmid]
      have hnc : ¬ (e.after = p ∧ e.id ≠ e.after) := fun hc => hc.2 hne
      by_cases hip : e.id = p
      · cases hl : dlookup acc.children p with
        | some l =>
          simp only [hip, hl, and_false, if_false, reduceCtorEq]
          rw [hchof]
          simp [hnc]
        | none =>
          simp only [hip, hl, and_true, if_true]
          have hk : chKey (e :: rest) p := ⟨e, List.mem_cons_self _ _, Or.inl hip⟩
          rw [hchof]
          simp [hk, hnc]
      · simp only [hip, false_and, if_false]
        cases hl : dlookup acc.children p with
        | some l =>
          rw [hchof]
          simp [hnc]
        | none =>
          rw [hchof]
          have hkiff : chKey (e :: rest) p ↔ chKey rest p := by
            unfold chKey
            constructor
            · rintro ⟨e', he', hor⟩
              rcases List.mem_cons.1 he' with he' | he'
              · subst he'
                rcases hor with h | h
                · exact absurd h hip
                · exact absurd h hnc
              · exact ⟨e', he', hor⟩
            · rintro ⟨e', he', hor⟩
              exact ⟨e', List.mem_cons_of_mem _ he', hor⟩
          simp only [if_false, List.nil_append]
          by_cases hk : chKey rest p
          · simp [hk, hkiff.2 hk, hnc]
          · have : ¬ chKey (e :: rest) p := fun hc => hk (hkiff.1 hc)
            simp [hk, this, hnc]

theorem chOf_subset_ids {es : List SnapEntry} {p c : CrdtId}
    (h : c ∈ chOf es p) : c ∈ es.map SnapEntry.id := by
  unfold chOf at h
  obtain ⟨e, he, hfe⟩ := List.mem_filterMap.1 h
  by_cases hc : e.after = p ∧ e.id ≠ e.after
  · rw [if_pos hc, Option.some_inj] at hfe
    exact List.mem_map.2 ⟨e, he, hfe⟩
  · rw [if_neg hc] at hfe
    cases hfe

theorem chOf_nodup {es : List SnapEntry} {p : CrdtId}
    (h : (es.map SnapEntry.id).Nodup) : (chOf es p).Nodup := by
  induction es with
  | nil => simp [chOf]
  | cons e rest ih =>
    rw [List.map_cons, List.nodup_cons] at h
    unfold chOf
    rw [List.filterMap_cons]
    by_cases hc : e.after = p ∧ e.id ≠ e.after
    · rw [if_pos hc]
      refine List.nodup_cons.2 ⟨?_, ih h.2⟩
      intro hmem
      exact h.1 (chOf_subset_ids hmem)
    · rw [if_neg hc]
      exact ih h.2

theorem mem_chOf {es : List SnapEntry} {p c : CrdtId} :
    c ∈ chOf es p ↔ ∃ e ∈ es, e.id = c ∧ e.after = p ∧ e.id ≠ e.after := by
  unfold chOf
  rw [List.mem_filterMap]
  constructor
  · rintro ⟨e, he, hfe⟩
    by_cases hc : e.after = p ∧ e.id ≠ e.after
    · rw [if_pos hc, Option.some_inj] at hfe
      exact ⟨e, he, hfe, hc⟩
    · rw [if_neg hc] at hfe
      cases hfe
  · rintro ⟨e, he, hid, hc⟩
    exact ⟨e, he, by rw [if_pos hc, hid]⟩

theorem from_dict_nodes {es : List SnapEntry} (h : (es.map SnapEntry.id).Nodup) :
    (from_dict es).nodes =
      es.map fun e => (e.id, (⟨e.id, e.after, e.text, e.deleted⟩ : Node)) := by
  unfold from_dict
  have := fromDict_fold_nodes es { nodes := [], children := [] }
    (by intro e _; rfl) h
  simpa using this

theorem from_dict_children (es : List SnapEntry) (p : CrdtId) :
    dlookup (from_dict es).children p =
      if chKey es p then some (sortDesc (chOf es p)) else none := by
  unfold from_dict
  rw [dlookup_map_val]
  rw [fromDict_fold_children es { nodes := [], children := [] } p]
  have : dlookup ({ nodes := [], children := [] } : Store).children p = none := rfl
  rw [this]
  by_cases hk : chKey es p
  · simp [hk]
  · simp [hk]

theorem pairs_id_of_wf {s : Store} (wf : WF s) :
    ∀ q ∈ s.nodes, q.2.id = q.1 := by
  intro q hq
  have : dlookup s.nodes q.1 = some q.2 := by
    have := dlookup_of_mem_nodup wf.nodupKeys (l := s.nodes) (k := q.1) (v := q.2)
    exact this (by cases q; exact hq)
  exact wf.idConsistent q.1 q.2 this

theorem to_dict_ids {s : Store} (wf : WF s) :
    (to_dict s).map SnapEntry.id = s.nodes.map Prod.fst := by
  unfold to_dict
  rw [List.map_map]
  refine List.map_congr_left ?_
  intro q hq
  exact pairs_id_of_wf wf q hq

theorem roundtrip_nodes {s : Store} (wf : WF s) :
    (from_dict (to_dict s)).nodes = s.nodes := by
  rw [from_dict_nodes (by rw [to_dict_ids wf]; exact wf.nodupKeys)]
  unfold to_dict
  rw [List.map_map]
  have : ∀ q ∈ s.nodes,
      ((fun e => (e.id, (⟨e.id, e.after, e.text, e.deleted⟩ : Node))) ∘
        fun p => (⟨p.2.id, p.2.after, p.2.text, p.2.deleted⟩ : SnapEntry)) q = q := by
    intro q hq
    have hid : q.2.id = q.1 := pairs_id_of_wf wf q hq
    cases q with
    | mk k n =>
      cases n
      simp at hid
      simp [hid]
  rw [List.map_congr_left this]
  simp

theorem roundtrip_children {s : Store} (wf : WF s) (p : CrdtId) :
    dlookup (from_dict (to_dict s)).children p = dlookup s.children p := by
  have hids : (to_dict s).map SnapEntry.id = s.nodes.map Prod.fst := to_dict_ids wf
  have hmementry : ∀ e, e ∈ to_dict s ↔
      ∃ q ∈ s.nodes, e = ⟨q.2.id, q.2.after, q.2.text, q.2.deleted⟩ := by
    intro e
    unfold to_dict
    rw [List.mem_map]
    constructor
    · rintro ⟨q, hq, he⟩
      exact ⟨q, hq, he.symm⟩
    · rintro ⟨q, hq, he⟩
      exact ⟨q, hq, he.symm⟩
  rw [from_dict_children]
  cases hl : dlookup s.children p with
  | some l =>
    have hpkeys : p ∈ s.nodes.map Prod.fst := by
      rw [← dlookup_isSome_iff]
      rw [← wf.chDomain p, hl]
      rfl
    obtain ⟨np, hnp⟩ := Option.isSome_iff_exists.1 ((dlookup_isSome_iff _ _).2 hpkeys)
    have hk : chKey (to_dict s) p := by
      refine ⟨⟨np.id, np.after, np.text, np.deleted⟩, ?_, Or.inl ?_⟩
      · exact (hmementry _).2 ⟨(p, np), mem_of_dlookup hnp, rfl⟩
      · exact wf.idConsistent p np hnp
    rw [if_pos hk]
    have hmemiff : ∀ c, c ∈ chOf (to_dict s) p ↔ c ∈ l := by
      intro c
      rw [mem_chOf]
      constructor
      · rintro ⟨e, he, hid, hap, hne⟩
        obtain ⟨q, hq, heq⟩ := (hmementry e).1 he
        subst heq
        simp only at hid hap hne
        have hqid : q.2.id = q.1 := pairs_id_of_wf wf q hq
        subst hid
        have hlookupc : dlookup s.nodes q.2.id = some q.2 := by
          have : dlookup s.nodes q.1 = some q.2 :=
            dlookup_of_mem_nodup wf.nodupKeys (by cases q; exact hq)
          rw [hqid]
          exact this
        have hcH : q.2.id ≠ HEAD := by
          intro hcH
          rw [hcH] at hlookupc
          rw [wf.headNode, Option.some_inj] at hlookupc
          have hafter : q.2.after = HEAD := by rw [← hlookupc]
          rw [hafter] at hne
          exact hne hcH
        obtain ⟨l', hl', hcl'⟩ := wf.chComplete q.2.id q.2 hlookupc hcH
        rw [hap] at hl'
        rw [hl] at hl'
        cases hl'
        exact hcl'
      · intro hcl
        obtain ⟨hcH, n, hn, hna⟩ := wf.chEntries p l c hl hcl
        refine ⟨⟨n.id, n.after, n.text, n.deleted⟩, ?_, ?_, ?_, ?_⟩
        · exact (hmementry _).2 ⟨(c, n), mem_of_dlookup hn, rfl⟩
        · exact wf.idConsistent c n hn
        · exact hna
        · simp only
          rw [wf.idConsistent c n hn, hna]
          intro he
          subst he
          have := (wf.afterRank c n hn hcH).2
          rw [hna] at this
          omega
    have hperm : List.Perm (chOf (to_dict s) p) l := by
      refine (List.perm_ext_iff_of_nodup ?_ (wf.chNodup p l hl)).2 hmemiff
      exact chOf_nodup (by rw [hids]; exact wf.nodupKeys)
    rw [sortDesc_congr hperm]
    rw [sortDesc_eq_self_of_sorted (wf.chSorted p l hl)]
  | none =>
    have hpkeys : p ∉ s.nodes.map Prod.fst := by
      intro hp
      have : (dlookup s.children p).isSome = true := by
        rw [wf.chDomain p]
        exact (dlookup_isSome_iff _ _).2 hp
      rw [hl] at this
      simp at this
    have hnk : ¬ chKey (to_dict s) p := by
      rintro ⟨e, he, hor⟩
      obtain ⟨q, hq, heq⟩ := (hmementry e).1 he
      subst heq
      have hqid : q.2.id = q.1 := pairs_id_of_wf wf q hq
      have hlookup : dlookup s.nodes q.1 = some q.2 :=
        dlookup_of_mem_nodup wf.nodupKeys (by cases q; exact hq)
      rcases hor with hid | ⟨hap, hne⟩
      · simp only at hid
        apply hpkeys
        rw [← hid, hqid]
        exact mem_keys_of_dlookup hlookup
      · simp only at hap hne
        have hq1H : q.1 ≠ HEAD := by
          intro hH
          rw [hH, wf.headNode, Option.some_inj] at hlookup
          apply hne
          rw [hqid, ← hlookup]
          exact hH
        have := (wf.afterRank q.1 q.2 hlookup hq1H).1
        apply hpkeys
        rw [← hap]
        exact this
    rw [if_neg hnk]

theorem visRun_congr {s₁ s₂ : Store}
    (hn : ∀ q, dlookup s₁.nodes q = dlookup s₂.nodes q)
    (hc : ∀ q, dlookup s₁.children q = dlookup s₂.children q) :
    ∀ f p, visRun s₁ f p = visRun s₂ f p := by
  intro f
  induction f with
  | zero => intro p; rfl
  | succ f ih =>
    intro p
    rw [visRun, visRun, hc p]
    apply congrArg
    funext cid
    rw [hn cid]
    cases dlookup s₂.nodes cid with
    | none => rfl
    | some n =>
      rw [ih cid]

/-- C3: snapshot round-trip.  For every store reachable from the initial
store, deserializing the serialization (`from_dict (to_dict s)`) produces a
store with the same `render()`, the same `state_hash()` and the same
`visible_id_map()` — indeed with literally the same `nodes` list and the
same `children` map. -/
theorem claim3_snapshot_roundtrip (s : Store) (h : Reachable s) :
    render (from_dict (to_dict s)) = render s ∧
    state_hash (from_dict (to_dict s)) = state_hash s ∧
    visible_id_map (from_dict (to_dict s)) = visible_id_map s ∧
    (from_dict (to_dict s)).nodes = s.nodes ∧
    (∀ p, dlookup (from_dict (to_dict s)).children p = dlookup s.children p) := by
  have wf := wf_reachable h
  have hn := roundtrip_nodes wf
  have hc := roundtrip_children wf
  have hlookup : ∀ q, dlookup (from_dict (to_dict s)).nodes q =
      dlookup s.nodes q := by
    intro q
    rw [hn]
  have hnodes : visibleNodesInOrder (from_dict (to_dict s)) =
      visibleNodesInOrder s := by
    unfold visibleNodesInOrder
    rw [hn]
    exact visRun_congr hlookup hc _ _
  refine ⟨?_, ?_, ?_, hn, hc⟩
  · unfold render
    rw [hnodes]
  · unfold state_hash render
    rw [hnodes]
  · unfold visible_id_map
    rw [hnodes]

/-- C3 witness: the round-trip on the concrete reachable store that holds
"xy" with the first character tombstoned. -/
theorem claim3_snapshot_roundtrip_witness :
    render (from_dict (to_dict (apply_delete
      (apply_insert (apply_insert initStore HEAD (1, "A") "x").1
        (1, "A") (2, "B") "y").1 (1, "A")).1)) =
      render (apply_delete
        (apply_insert (apply_insert initStore HEAD (1, "A") "x").1
          (1, "A") (2, "B") "y").1 (1, "A")).1 ∧
    state_hash (from_dict (to_dict (apply_delete
      (apply_insert (apply_insert initStore HEAD (1, "A") "x").1
        (1, "A") (2, "B") "y").1 (1, "A")).1)) =
      state_hash (apply_delete
        (apply_insert (apply_insert initStore HEAD (1, "A") "x").1
          (1, "A") (2, "B") "y").1 (1, "A")).1 ∧
    visible_id_map (from_dict (to_dict (apply_delete
      (apply_insert (apply_insert initStore HEAD (1, "A") "x").1
        (1, "A") (2, "B") "y").1 (1, "A")).1)) =
      visible_id_map (apply_delete
        (apply_insert (apply_insert initStore HEAD (1, "A") "x").1
          (1, "A") (2, "B") "y").1 (1, "A")).1 := by
  have h := claim3_snapshot_roundtrip _
    (Reachable.delete (1, "A") (Reachable.insert (1, "A") (2, "B") "y"
      (Reachable.insert HEAD (1, "A") "x" Reachable.init)))
  exact ⟨h.1, h.2.1, h.2.2.1⟩

/-- Ids of the insert operations of a list, in order. -/
def insIds (l : List Op) : List CrdtId :=
  l.filterMap fun op =>
    match op with
    | .insert _ i _ => some i
    | .delete _ => none

/-- The first insert with the given id: its parent and text. -/
def findInsert (l : List Op) (q : CrdtId) : Option (CrdtId × String) :=
  l.findSome? fun op =>
    match op with
    | .insert a i c => if i = q then some (a, c) else none
    | .delete _ => none

/-- Whether the list contains a delete of `q`. -/
def hasDelete (l : List Op) (q : CrdtId) : Bool :=
  l.any fun op =>
    match op with
    | .insert _ _ _ => false
    | .delete i => i = q

/-- The ids inserted with parent `q`, in list order. -/
def childIds (l : List Op) (q : CrdtId) : List CrdtId :=
  l.filterMap fun op =>
    match op with
    | .insert a i _ => if a = q then some i else none
    | .delete _ => none

/-- The `nodes` lookup that results from applying the op set in any
dependency-respecting order (proved below): HEAD is the sentinel, an
inserted id carries its insert's parent and text and is tombstoned exactly
when the set also deletes it, anything else is absent. -/
def canonNodes (l : List Op) (q : CrdtId) : Option Node :=
  if q = HEAD then some ⟨HEAD, HEAD, "", false⟩
  else
    match findInsert l q with
    | some r => some ⟨q, r.1, r.2, hasDelete l q⟩
    | none => none

/-- The corresponding `children` lookup: defined on HEAD and the inserted
ids, holding the descending sort of the ids inserted under the parent. -/
def canonChildren (l : List Op) (q : CrdtId) : Option (List CrdtId) :=
  if q = HEAD ∨ (findInsert l q).isSome then some (sortDesc (childIds l q))
  else none

/-- A dependency-respecting order: each insert's parent and each delete's
target is HEAD or the id of an earlier insert (this is what the
pending-buffer flush enforces before an op reaches `apply_insert` /
`apply_delete`). -/
def readyFrom (seen : List CrdtId) : List Op → Bool
  | [] => true
  | .insert a i _ :: rest =>
    decide (a = HEAD ∨ a ∈ seen) && readyFrom (i :: seen) rest
  | .delete i :: rest =>
    decide (i = HEAD ∨ i ∈ seen) && readyFrom seen rest

/-- Every delete in the log targets HEAD or an inserted id. -/
def DelOK (l : List Op) : Prop :=
  ∀ q, hasDelete l q = true → q = HEAD ∨ q ∈ insIds l

/-- Every insert in the log hangs off HEAD or an inserted id. -/
def AfterOK (l : List Op) : Prop :=
  ∀ a i c, Op.insert a i c ∈ l → a = HEAD ∨ a ∈ insIds l

/-- The store agrees with the canonical lookups of the applied log. -/
def InvC (applied : List Op) (s : Store) : Prop :=
  (∀ q, dlookup s.nodes q = canonNodes applied q) ∧
  (∀ q, dlookup s.children q = canonChildren applied q) ∧
  s.nodes.length = 1 + (insIds applied).length

theorem insIds_append (l₁ l₂ : List Op) :
    insIds (l₁ ++ l₂) = insIds l₁ ++ insIds l₂ := by
  unfold insIds
  rw [List.filterMap_append]

theorem childIds_append (l₁ l₂ : List Op) (q : CrdtId) :
    childIds (l₁ ++ l₂) q = childIds l₁ q ++ childIds l₂ q := by
  unfold childIds
  rw [List.filterMap_append]

theorem hasDelete_append (l₁ l₂ : List Op) (q : CrdtId) :
    hasDelete (l₁ ++ l₂) q = (hasDelete l₁ q || hasDelete l₂ q) := by
  unfold hasDelete
  rw [List.any_append]

theorem findInsert_append (l₁ l₂ : List Op) (q : CrdtId) :
    findInsert (l₁ ++ l₂) q =
      match findInsert l₁ q with
      | some r => some r
      | none => findInsert l₂ q := by
  unfold findInsert
  induction l₁ with
  | nil => simp [List.findSome?]
  | cons op t ih =>
    cases op with
    | insert a i c =>
      by_cases hi : i = q
      · simp [List.findSome?_cons, hi]
      · simp only [List.cons_append, List.findSome?_cons, hi, if_false]
        exact ih
    | delete i =>
      simp only [List.cons_append, List.findSome?_cons]
      exact ih

theorem findInsert_none_iff (l : List Op) (q : CrdtId) :
    findInsert l q = none ↔ q ∉ insIds l := by
  induction l with
  | nil => simp [findInsert, insIds, List.findSome?]
  | cons op t ih =>
    cases op with
    | insert a i c =>
      by_cases hi : i = q
      · subst hi
        simp [findInsert, List.findSome?_cons, insIds]
      · unfold findInsert insIds at ih ⊢
        simp only [List.findSome?_cons, hi, if_false, List.filterMap_cons]
        simp only [List.mem_cons]
        rw [ih]
        constructor
        · intro h hc
          rcases hc with hc | hc
          · exact hi hc.symm
          · exact h hc
        · intro h hc
          exact h (Or.inr hc)
    | delete i =>
      unfold findInsert insIds at ih ⊢
      simp only [List.findSome?_cons, List.filterMap_cons]
      exact ih

theorem findInsert_isSome_iff (l : List Op) (q : CrdtId) :
    (findInsert l q).isSome = true ↔ q ∈ insIds l := by
  cases hf : findInsert l q with
  | none =>
    simp only [Option.isSome_none, Bool.false_eq_true, false_iff]
    exact (findInsert_none_iff l q).1 hf
  | some r =>
    simp only [Option.isSome_some, true_iff]
    by_contra hq
    rw [← findInsert_none_iff l q] at hq
    rw [hq] at hf
    cases hf

theorem findInsert_mem {l : List Op} {q : CrdtId} {r : CrdtId × String}
    (h : findInsert l q = some r) : Op.insert r.1 q r.2 ∈ l := by
  induction l with
  | nil => cases h
  | cons op t ih =>
    cases op with
    | insert a i c =>
      by_cases hi : i = q
      · subst hi
        unfold findInsert at h
        rw [List.findSome?_cons] at h
        simp at h
        rw [← h]
        exact List.mem_cons_self _ _
      · unfold findInsert at h ih
        rw [List.findSome?_cons] at h
        simp only [hi, if_false] at h
        exact List.mem_cons_of_mem _ (ih h)
    | delete i =>
      unfold findInsert at h ih
      rw [List.findSome?_cons] at h
      exact List.mem_cons_of_mem _ (ih h)

theorem mem_childIds {l : List Op} {q j : CrdtId} :
    j ∈ childIds l q ↔ ∃ c, Op.insert q j c ∈ l := by
  unfold childIds
  rw [List.mem_filterMap]
  constructor
  · rintro ⟨op, hop, hf⟩
    cases op with
    | insert a i c =>
      by_cases ha : a = q
      · simp only [ha, if_true] at hf
        rw [Option.some_inj] at hf
        subst hf
        exact ⟨c, ha ▸ hop⟩
      · simp [ha] at hf
    | delete i => cases hf
  · rintro ⟨c, hc⟩
    exact ⟨Op.insert q j c, hc, by simp⟩

theorem mem_insIds {l : List Op} {q : CrdtId} :
    q ∈ insIds l ↔ ∃ a c, Op.insert a q c ∈ l := by
  unfold insIds
  rw [List.mem_filterMap]
  constructor
  · rintro ⟨op, hop, hf⟩
    cases op with
    | insert a i c =>
      simp at hf
      subst hf
      exact ⟨a, c, hop⟩
    | delete i => cases hf
  · rintro ⟨a, c, hc⟩
    exact ⟨Op.insert a q c, hc, rfl⟩

theorem dlookup_append_single_self {β : Type} (l : List (CrdtId × β)) (k : CrdtId)
    (v : β) (h : dlookup l k = none) : dlookup (l ++ [(k, v)]) k = some v := by
  rw [dlookup_append, h]
  simp [dlookup]

theorem dlookup_append_single_ne {β : Type} (l : List (CrdtId × β)) (k q : CrdtId)
    (v : β) (hq : q ≠ k) : dlookup (l ++ [(k, v)]) q = dlookup l q := by
  rw [dlookup_append]
  cases hl : dlookup l q with
  | some w => rfl
  | none => simp [dlookup, Ne.symm hq]

theorem hasDelete_single_insert (a i : CrdtId) (c : String) (q : CrdtId) :
    hasDelete [Op.insert a i c] q = false := rfl

theorem findInsert_single_insert (a i : CrdtId) (c : String) (q : CrdtId) :
    findInsert [Op.insert a i c] q = if i = q then some (a, c) else none := by
  unfold findInsert
  rw [List.findSome?_cons]
  by_cases hi : i = q
  · simp [hi, List.findSome?]
  · simp [hi, List.findSome?]

theorem childIds_single_insert (a i : CrdtId) (c : String) (q : CrdtId) :
    childIds [Op.insert a i c] q = if a = q then [i] else [] := by
  unfold childIds
  rw [List.filterMap_cons]
  by_cases ha : a = q
  · simp [ha]
  · simp [ha]

theorem inv_step_insert {applied : List Op} {s : Store} {a i : CrdtId} {c : String}
    (inv : InvC applied s) (dok : DelOK applied) (aok : AfterOK applied)
    (ha : a = HEAD ∨ a ∈ insIds applied)
    (hiH : i ≠ HEAD) (hfresh : i ∉ insIds applied) :
    InvC (applied ++ [Op.insert a i c]) (applyOp s (Op.insert a i c)) ∧
    DelOK (applied ++ [Op.insert a i c]) ∧
    AfterOK (applied ++ [Op.insert a i c]) := by
  obtain ⟨invN, invCh, invL⟩ := inv
  have hai : a ≠ i := by
    intro he
    subst he
    rcases ha with h | h
    · exact hiH h
    · exact hfresh h
  have hfi : findInsert applied i = none := (findInsert_none_iff _ _).2 hfresh
  have hdi : hasDelete applied i = false := by
    cases hd : hasDelete applied i
    · rfl
    · rcases dok i hd with h | h
      · exact absurd h hiH
      · exact absurd h hfresh
  have hlookupNi : dlookup s.nodes i = none := by
    rw [invN i]
    unfold canonNodes
    rw [if_neg hiH, hfi]
  have hlookupNa : (dlookup s.nodes a).isSome = true := by
    rw [invN a]
    unfold canonNodes
    by_cases haH : a = HEAD
    · simp [haH]
    · have hmem : a ∈ insIds applied := ha.resolve_left haH
      obtain ⟨r, hr⟩ :=
        Option.isSome_iff_exists.1 ((findInsert_isSome_iff _ _).2 hmem)
      simp [haH, hr]
  have hlookupCa : dlookup s.children a = some (sortDesc (childIds applied a)) := by
    rw [invCh a]
    unfold canonChildren
    rw [if_pos]
    by_cases haH : a = HEAD
    · exact Or.inl haH
    · exact Or.inr ((findInsert_isSome_iff _ _).2 (ha.resolve_left haH))
  have hlookupCi : dlookup s.children i = none := by
    rw [invCh i]
    unfold canonChildren
    rw [if_neg]
    rintro (h | h)
    · exact hiH h
    · rw [hfi] at h
      cases h
  obtain ⟨heq, _⟩ := apply_insert_fresh_eq hlookupCa hlookupNa hlookupNi hlookupCi
  have hchilds : childIds applied i = [] := by
    rw [List.eq_nil_iff_forall_not_mem]
    intro j hj
    obtain ⟨c', hc'⟩ := mem_childIds.1 hj
    rcases aok i j c' hc' with h | h
    · exact hiH h
    · exact hfresh h
  have happ : applyOp s (Op.insert a i c) = (apply_insert s a i c).1 := rfl
  refine ⟨⟨?_, ?_, ?_⟩, ?_, ?_⟩
  · intro q
    rw [happ, heq]
    by_cases hqi : q = i
    · subst hqi
      rw [dlookup_append_single_self _ _ _ hlookupNi]
      unfold canonNodes
      rw [if_neg hiH]
      rw [findInsert_append, hfi, findInsert_single_insert]
      rw [hasDelete_append, hdi, hasDelete_single_insert]
      simp
    · rw [dlookup_append_single_ne _ _ _ _ hqi]
      rw [invN q]
      unfold canonNodes
      by_cases hqH : q = HEAD
      · simp [hqH]
      · rw [if_neg hqH, if_neg hqH]
        rw [findInsert_append]
        rw [hasDelete_append, hasDelete_single_insert, Bool.or_false]
        cases hfq : findInsert applied q with
        | some r => rfl
        | none =>
          rw [findInsert_single_insert]
          simp [Ne.symm hqi]
  · intro q
    rw [happ, heq]
    by_cases hqa : q = a
    · subst hqa
      have h1 : dlookup (dset s.children q
          (sortDesc (sortDesc (childIds applied q) ++ [i])) ++ [(i, [])]) q =
          some (sortDesc (sortDesc (childIds applied q) ++ [i])) := by
        rw [dlookup_append_single_ne _ _ _ _ hai, dlookup_dset_self]
      rw [h1]
      unfold canonChildren
      rw [if_pos]
      · rw [childIds_append, childIds_single_insert]
        simp only [if_pos rfl]
        have hperm : List.Perm (sortDesc (childIds applied q) ++ [i])
            (childIds applied q ++ [i]) :=
          List.Perm.append_right [i] (sortDesc_perm _)
        rw [sortDesc_congr hperm]
        simp
      · by_cases haH : q = HEAD
        · exact Or.inl haH
        · refine Or.inr ?_
          rw [findInsert_append]
          obtain ⟨r, hr⟩ := Option.isSome_iff_exists.1
            ((findInsert_isSome_iff _ _).2 (ha.resolve_left haH))
          rw [hr]
          rfl
    · by_cases hqi : q = i
      · subst hqi
        have h1 : dlookup (dset s.children a
            (sortDesc (sortDesc (childIds applied a) ++ [q])) ++ [(q, [])]) q =
            some [] := by
          rw [dlookup_append, dlookup_dset_ne _ _ _ _ hai]
          rw [hlookupCi]
          simp [dlookup]
        rw [h1]
        unfold canonChildren
        rw [if_pos]
        · rw [childIds_append, childIds_single_insert, hchilds]
          rw [if_neg (fun he => hai he)]
          rfl
        · refine Or.inr ?_
          rw [findInsert_append, hfi, findInsert_single_insert]
          simp
      · have h1 : dlookup (dset s.children a
            (sortDesc (sortDesc (childIds applied a) ++ [i])) ++ [(i, [])]) q =
            dlookup s.children q := by
          rw [dlookup_append_single_ne _ _ _ _ hqi]
          rw [dlookup_dset_ne _ _ _ _ (Ne.symm hqa)]
        rw [h1, invCh q]
        unfold canonChildren
        have hfind : findInsert (applied ++ [Op.insert a i c]) q =
            findInsert applied q := by
          rw [findInsert_append]
          cases hfq : findInsert applied q with
          | some r => rfl
          | none =>
            rw [findInsert_single_insert]
            simp [Ne.symm hqi]
        rw [hfind]
        rw [childIds_append, childIds_single_insert, if_neg (Ne.symm hqa)]
        rw [List.append_nil]
  · rw [happ, heq]
    simp only [List.length_append, List.length_cons, List.length_nil]
    rw [insIds_append]
    have : insIds [Op.insert a i c] = [i] := rfl
    rw [this]
    simp only [List.length_append, List.length_cons, List.length_nil]
    omega
  · intro q hq
    rw [hasDelete_append, hasDelete_single_insert, Bool.or_false] at hq
    rw [insIds_append]
    rcases dok q hq with h | h
    · exact Or.inl h
    · exact Or.inr (List.mem_append_left _ h)
  · intro a' i' c' hmem
    rw [insIds_append]
    rcases List.mem_append.1 hmem with h | h
    · rcases aok a' i' c' h with h' | h'
      · exact Or.inl h'
      · exact Or.inr (List.mem_append_left _ h')
    · simp at h
      obtain ⟨h1, _, _⟩ := h
      subst h1
      rcases ha with h' | h'
      · exact Or.inl h'
      · exact Or.inr (List.mem_append_left _ h')

theorem findInsert_append_delete (l : List Op) (t q : CrdtId) :
    findInsert (l ++ [Op.delete t]) q = findInsert l q := by
  rw [findInsert_append]
  cases hf : findInsert l q with
  | some r => rfl
  | none => rfl

theorem childIds_append_delete (l : List Op) (t q : CrdtId) :
    childIds (l ++ [Op.delete t]) q = childIds l q := by
  rw [childIds_append]
  simp [childIds]

theorem insIds_append_delete (l : List Op) (t : CrdtId) :
    insIds (l ++ [Op.delete t]) = insIds l := by
  rw [insIds_append]
  simp [insIds]

theorem hasDelete_append_delete (l : List Op) (t q : CrdtId) :
    hasDelete (l ++ [Op.delete t]) q = (hasDelete l q || decide (t = q)) := by
  rw [hasDelete_append]
  simp [hasDelete]

theorem canonChildren_append_delete (l : List Op) (t q : CrdtId) :
    canonChildren (l ++ [Op.delete t]) q = canonChildren l q := by
  unfold canonChildren
  rw [findInsert_append_delete, childIds_append_delete]

theorem inv_step_delete {applied : List Op} {s : Store} {t : CrdtId}
    (inv : InvC applied s) (dok : DelOK applied) (aok : AfterOK applied)
    (ht : t = HEAD ∨ t ∈ insIds applied) :
    InvC (applied ++ [Op.delete t]) (applyOp s (Op.delete t)) ∧
    DelOK (applied ++ [Op.delete t]) ∧
    AfterOK (applied ++ [Op.delete t]) := by
  obtain ⟨invN, invCh, invL⟩ := inv
  have hdel : DelOK (applied ++ [Op.delete t]) := by
    intro q hq
    rw [hasDelete_append_delete] at hq
    rw [insIds_append_delete]
    rcases Bool.or_eq_true_iff.1 hq with h | h
    · exact dok q h
    · have : t = q := of_decide_eq_true h
      subst this
      exact ht
  have haft : AfterOK (applied ++ [Op.delete t]) := by
    intro a' i' c' hmem
    rw [insIds_append_delete]
    rcases List.mem_append.1 hmem with h | h
    · exact aok a' i' c' h
    · simp at h
  by_cases htH : t = HEAD
  · subst htH
    have hs : applyOp s (Op.delete HEAD) = s := by
      have hl : dlookup s.nodes HEAD = some ⟨HEAD, HEAD, "", false⟩ := by
        rw [invN HEAD]
        simp [canonNodes]
      show (apply_delete s HEAD).1 = s
      unfold apply_delete
      rw [hl]
      simp
    rw [hs]
    refine ⟨⟨?_, ?_, ?_⟩, hdel, haft⟩
    · intro q
      rw [invN q]
      unfold canonNodes
      by_cases hqH : q = HEAD
      · simp [hqH]
      · rw [if_neg hqH, if_neg hqH, findInsert_append_delete]
        rw [hasDelete_append_delete]
        have : decide (HEAD = q) = false := by
          simp
          exact fun he => hqH he.symm
        rw [this, Bool.or_false]
    · intro q
      rw [invCh q, canonChildren_append_delete]
    · rw [insIds_append_delete]
      exact invL
  · have htmem : t ∈ insIds applied := ht.resolve_left htH
    obtain ⟨r, hr⟩ := Option.isSome_iff_exists.1 ((findInsert_isSome_iff _ _).2 htmem)
    have hlt : dlookup s.nodes t =
        some ⟨t, r.1, r.2, hasDelete applied t⟩ := by
      rw [invN t]
      unfold canonNodes
      rw [if_neg htH, hr]
    have hs : applyOp s (Op.delete t) =
        { s with nodes := dset s.nodes t ⟨t, r.1, r.2, true⟩ } := by
      show (apply_delete s t).1 =
        { s with nodes := dset s.nodes t (⟨t, r.1, r.2, true⟩ : Node) }
      unfold apply_delete
      rw [hlt]
      simp [htH]
    rw [hs]
    refine ⟨⟨?_, ?_, ?_⟩, hdel, haft⟩
    · intro q
      by_cases hqt : q = t
      · subst hqt
        have h1 : dlookup (dset s.nodes q (⟨q, r.1, r.2, true⟩ : Node)) q =
            some ⟨q, r.1, r.2, true⟩ := dlookup_dset_self _ _ _
        rw [h1]
        unfold canonNodes
        rw [if_neg htH, findInsert_append_delete, hr]
        rw [hasDelete_append_delete]
        simp
      · have h1 : dlookup (dset s.nodes t (⟨t, r.1, r.2, true⟩ : Node)) q =
            dlookup s.nodes q := dlookup_dset_ne _ _ _ _ (Ne.symm hqt)
        rw [h1, invN q]
        unfold canonNodes
        by_cases hqH : q = HEAD
        · simp [hqH]
        · rw [if_neg hqH, if_neg hqH, findInsert_append_delete]
          rw [hasDelete_append_delete]
          have : decide (t = q) = false := by
            simp
            exact fun he => hqt he.symm
          rw [this, Bool.or_false]
    · intro q
      rw [invCh q, canonChildren_append_delete]
    · rw [insIds_append_delete]
      rw [length_dset_of_some _ (by rw [hlt]; rfl)]
      exact invL

theorem readyFrom_congr {seen₁ seen₂ : List CrdtId}
    (h : ∀ x, x ∈ seen₁ ↔ x ∈ seen₂) :
    ∀ l, readyFrom seen₁ l = readyFrom seen₂ l := by
  intro l
  induction l generalizing seen₁ seen₂ with
  | nil => rfl
  | cons op rest ih =>
    cases op with
    | insert a i c =>
      unfold readyFrom
      have hd : decide (a = HEAD ∨ a ∈ seen₁) = decide (a = HEAD ∨ a ∈ seen₂) := by
        simp only [h a]
      rw [hd]
      have h' : ∀ x, x ∈ i :: seen₁ ↔ x ∈ i :: seen₂ := by
        intro x
        simp [h x]
      rw [ih h']
    | delete i =>
      unfold readyFrom
      have hd : decide (i = HEAD ∨ i ∈ seen₁) = decide (i = HEAD ∨ i ∈ seen₂) := by
        simp only [h i]
      rw [hd]
      rw [ih h]

theorem inv_run : ∀ (rest applied : List Op) (s : Store),
    InvC applied s → DelOK applied → AfterOK applied →
    readyFrom (insIds applied) rest = true →
    HEAD ∉ insIds (applied ++ rest) →
    (insIds (applied ++ rest)).Nodup →
    InvC (applied ++ rest) (applyOps s rest) ∧ DelOK (applied ++ rest) ∧
      AfterOK (applied ++ rest)
  | [], applied, s, inv, dok, aok, _, _, _ => by
    rw [List.append_nil]
    exact ⟨inv, dok, aok⟩
  | op :: rest, applied, s, inv, dok, aok, hready, hH, hnd => by
    have hassoc : applied ++ op :: rest = (applied ++ [op]) ++ rest := by
      rw [List.append_assoc]
      rfl
    have happly : applyOps s (op :: rest) = applyOps (applyOp s op) rest := by
      unfold applyOps
      rw [List.foldl_cons]
    rw [hassoc, happly]
    cases op with
    | insert a i c =>
      have hsplit := hready
      unfold readyFrom at hsplit
      rw [Bool.and_eq_true] at hsplit
      have ha : a = HEAD ∨ a ∈ insIds applied := of_decide_eq_true hsplit.1
      have hids : insIds (applied ++ Op.insert a i c :: rest) =
          insIds applied ++ i :: insIds rest := by
        rw [insIds_append]
        rfl
      have hiH : i ≠ HEAD := by
        intro he
        apply hH
        rw [hids]
        subst he
        exact List.mem_append_right _ (List.mem_cons_self _ _)
      have hifresh : i ∉ insIds applied := by
        intro hmem
        rw [hids] at hnd
        have := (List.nodup_append.1 hnd).2.2
        exact this hmem (List.mem_cons_self _ _)
      obtain ⟨inv', dok', aok'⟩ := inv_step_insert inv dok aok ha hiH hifresh
      have hready' : readyFrom (insIds (applied ++ [Op.insert a i c])) rest =
          true := by
        rw [← hsplit.2]
        apply readyFrom_congr
        intro x
        rw [insIds_append]
        have h1 : insIds [Op.insert a i c] = [i] := rfl
        rw [h1]
        constructor
        · intro hx
          rcases List.mem_append.1 hx with hx | hx
          · exact List.mem_cons_of_mem _ hx
          · rcases List.mem_cons.1 hx with hx | hx
            · exact hx ▸ List.mem_cons_self _ _
            · exact absurd hx (List.not_mem_nil x)
        · intro hx
          rcases List.mem_cons.1 hx with hx | hx
          · exact List.mem_append_right _ (by rw [hx]; exact List.mem_cons_self _ _)
          · exact List.mem_append_left _ hx
      exact inv_run rest (applied ++ [Op.insert a i c]) (applyOp s _) inv' dok' aok'
        hready' (by rw [← hassoc]; exact hH) (by rw [← hassoc]; exact hnd)
    | delete t =>
      have hsplit := hready
      unfold readyFrom at hsplit
      rw [Bool.and_eq_true] at hsplit
      have ht : t = HEAD ∨ t ∈ insIds applied := of_decide_eq_true hsplit.1
      obtain ⟨inv', dok', aok'⟩ := inv_step_delete inv dok aok ht
      have hready' : readyFrom (insIds (applied ++ [Op.delete t])) rest = true := by
        rw [insIds_append_delete]
        exact hsplit.2
      exact inv_run rest (applied ++ [Op.delete t]) (applyOp s _) inv' dok' aok'
        hready' (by rw [← hassoc]; exact hH) (by rw [← hassoc]; exact hnd)

theorem insIds_perm {l₁ l₂ : List Op} (h : List.Perm l₁ l₂) :
    List.Perm (insIds l₁) (insIds l₂) :=
  List.Perm.filterMap _ h

theorem childIds_perm {l₁ l₂ : List Op} (h : List.Perm l₁ l₂) (q : CrdtId) :
    List.Perm (childIds l₁ q) (childIds l₂ q) :=
  List.Perm.filterMap _ h

theorem hasDelete_perm {l₁ l₂ : List Op} (h : List.Perm l₁ l₂) (q : CrdtId) :
    hasDelete l₁ q = hasDelete l₂ q := by
  unfold hasDelete
  cases hb : List.any l₂ _ with
  | true =>
    rw [List.any_eq_true] at hb ⊢
    obtain ⟨op, hm, hop⟩ := hb
    exact ⟨op, h.mem_iff.2 hm, hop⟩
  | false =>
    rw [List.any_eq_false] at hb ⊢
    intro op hm
    exact hb op (h.mem_iff.1 hm)

theorem insert_unique : ∀ {l : List Op}, (insIds l).Nodup →
    ∀ {a c a' c' q}, Op.insert a q c ∈ l → Op.insert a' q c' ∈ l →
      a = a' ∧ c = c'
  | [], _, _, _, _, _, _, h, _ => by cases h
  | op :: t, hnd, a, c, a', c', q, h₁, h₂ => by
    cases op with
    | insert a0 i0 c0 =>
      have hnd' : (insIds t).Nodup ∧ i0 ∉ insIds t := by
        have : insIds (Op.insert a0 i0 c0 :: t) = i0 :: insIds t := rfl
        rw [this] at hnd
        exact ⟨(List.nodup_cons.1 hnd).2, (List.nodup_cons.1 hnd).1⟩
      rcases List.mem_cons.1 h₁ with h₁' | h₁' <;>
        rcases List.mem_cons.1 h₂ with h₂' | h₂'
      · rw [Op.insert.injEq] at h₁' h₂'
        exact ⟨h₁'.1.trans h₂'.1.symm, h₁'.2.2.trans h₂'.2.2.symm⟩
      · exfalso
        rw [Op.insert.injEq] at h₁'
        apply hnd'.2
        rw [← h₁'.2.1]
        exact mem_insIds.2 ⟨a', c', h₂'⟩
      · exfalso
        rw [Op.insert.injEq] at h₂'
        apply hnd'.2
        rw [← h₂'.2.1]
        exact mem_insIds.2 ⟨a, c, h₁'⟩
      · exact insert_unique hnd'.1 h₁' h₂'
    | delete t0 =>
      have hnd' : (insIds t).Nodup := by
        have : insIds (Op.delete t0 :: t) = insIds t := rfl
        rw [this] at hnd
        exact hnd
      rcases List.mem_cons.1 h₁ with h₁' | h₁'
      · cases h₁'
      · rcases List.mem_cons.1 h₂ with h₂' | h₂'
        · cases h₂'
        · exact insert_unique hnd' h₁' h₂'

theorem findInsert_perm {l₁ l₂ : List Op} (h : List.Perm l₁ l₂)
    (hnd : (insIds l₁).Nodup) (q : CrdtId) :
    findInsert l₁ q = findInsert l₂ q := by
  have hnd₂ : (insIds l₂).Nodup := ((insIds_perm h).nodup_iff).1 hnd
  cases h₁ : findInsert l₁ q with
  | none =>
    have hq : q ∉ insIds l₁ := (findInsert_none_iff _ _).1 h₁
    have hq₂ : q ∉ insIds l₂ := fun hm => hq ((insIds_perm h).mem_iff.2 hm)
    rw [(findInsert_none_iff _ _).2 hq₂]
  | some r =>
    have hmem₁ : Op.insert r.1 q r.2 ∈ l₁ := findInsert_mem h₁
    have hmem₂ : Op.insert r.1 q r.2 ∈ l₂ := h.mem_iff.1 hmem₁
    cases h₂ : findInsert l₂ q with
    | none =>
      exfalso
      exact (findInsert_none_iff _ _).1 h₂ (mem_insIds.2 ⟨r.1, r.2, hmem₂⟩)
    | some r' =>
      have hmem₂' : Op.insert r'.1 q r'.2 ∈ l₂ := findInsert_mem h₂
      obtain ⟨ha, hc⟩ := insert_unique hnd₂ hmem₂ hmem₂'
      rw [Option.some_inj]
      cases r
      cases r'
      simp at ha hc
      simp [ha, hc]

theorem canonNodes_perm {l₁ l₂ : List Op} (h : List.Perm l₁ l₂)
    (hnd : (insIds l₁).Nodup) (q : CrdtId) :
    canonNodes l₁ q = canonNodes l₂ q := by
  unfold canonNodes
  rw [findInsert_perm h hnd, hasDelete_perm h]

theorem canonChildren_perm {l₁ l₂ : List Op} (h : List.Perm l₁ l₂)
    (hnd : (insIds l₁).Nodup) (q : CrdtId) :
    canonChildren l₁ q = canonChildren l₂ q := by
  unfold canonChildren
  rw [findInsert_perm h hnd, sortDesc_congr (childIds_perm h q)]

theorem invC_initStore : InvC [] initStore := by
  refine ⟨?_, ?_, ?_⟩
  · intro q
    unfold canonNodes
    by_cases hq : q = HEAD
    · subst hq
      simp [initStore, dlookup]
    · have hne : HEAD ≠ q := Ne.symm hq
      have hfi : findInsert [] q = none := rfl
      simp [initStore, dlookup, hne, hq, hfi]
  · intro q
    unfold canonChildren
    by_cases hq : q = HEAD
    · subst hq
      simp [initStore, dlookup]
      rfl
    · have hne : HEAD ≠ q := Ne.symm hq
      have hfi : findInsert [] q = none := rfl
      simp [initStore, dlookup, hne, hq, hfi]
  · simp [initStore, insIds]

/-- C1: order-insensitivity (convergence).  Two fresh stores to which the
same finite set of operations is applied, each in a dependency-respecting
order (what the pending-buffer flush enforces: an insert is applied only
when its `after` is present, a delete only when its target is), end with
the same `nodes` map, the same `children` map (as Python dict equality:
pointwise equal lookups), the same `render()` string and the same visible
id map.  The op set is required to use pairwise-distinct non-HEAD insert
ids, as the Lamport ids generated by the editors are. -/
theorem claim1_convergence (l₁ l₂ : List Op)
    (hperm : List.Perm l₁ l₂)
    (h₁ : readyFrom [] l₁ = true) (h₂ : readyFrom [] l₂ = true)
    (hnd : (insIds l₁).Nodup) (hH : HEAD ∉ insIds l₁) :
    (∀ q, dlookup (applyOps initStore l₁).nodes q =
      dlookup (applyOps initStore l₂).nodes q) ∧
    (∀ q, dlookup (applyOps initStore l₁).children q =
      dlookup (applyOps initStore l₂).children q) ∧
    render (applyOps initStore l₁) = render (applyOps initStore l₂) ∧
    visible_id_map (applyOps initStore l₁) = visible_id_map (applyOps initStore l₂) := by
  have hnd₂ : (insIds l₂).Nodup := ((insIds_perm hperm).nodup_iff).1 hnd
  have hH₂ : HEAD ∉ insIds l₂ := fun hm => hH ((insIds_perm hperm).mem_iff.2 hm)
  have hdel0 : DelOK [] := by
    intro q hq
    cases hq
  have haft0 : AfterOK [] := by
    intro a i c hm
    cases hm
  have run₁ := inv_run l₁ [] initStore invC_initStore hdel0 haft0 h₁
    (by simpa using hH) (by simpa using hnd)
  have run₂ := inv_run l₂ [] initStore invC_initStore hdel0 haft0 h₂
    (by simpa using hH₂) (by simpa using hnd₂)
  rw [List.nil_append] at run₁ run₂
  obtain ⟨⟨invN₁, invC₁, invL₁⟩, _, _⟩ := run₁
  obtain ⟨⟨invN₂, invC₂, invL₂⟩, _, _⟩ := run₂
  have hnodes : ∀ q, dlookup (applyOps initStore l₁).nodes q =
      dlookup (applyOps initStore l₂).nodes q := by
    intro q
    rw [invN₁ q, invN₂ q]
    exact canonNodes_perm hperm hnd q
  have hchildren : ∀ q, dlookup (applyOps initStore l₁).children q =
      dlookup (applyOps initStore l₂).children q := by
    intro q
    rw [invC₁ q, invC₂ q]
    exact canonChildren_perm hperm hnd q
  have hlen : (applyOps initStore l₁).nodes.length =
      (applyOps initStore l₂).nodes.length := by
    rw [invL₁, invL₂, (insIds_perm hperm).length_eq]
  have hvis : visibleNodesInOrder (applyOps initStore l₁) =
      visibleNodesInOrder (applyOps initStore l₂) := by
    unfold visibleNodesInOrder
    rw [hlen]
    exact visRun_congr hnodes hchildren _ _
  refine ⟨hnodes, hchildren, ?_, ?_⟩
  · unfold render
    rw [hvis]
  · unfold visible_id_map
    rw [hvis]

/-- C1 witness: two concurrent root inserts delivered in opposite orders
produce identical stores and render the same string. -/
theorem claim1_convergence_witness :
    render (applyOps initStore
      [Op.insert HEAD (1, "A") "x", Op.insert HEAD (1, "B") "y"]) =
    render (applyOps initStore
      [Op.insert HEAD (1, "B") "y", Op.insert HEAD (1, "A") "x"]) :=
  (claim1_convergence
    [Op.insert HEAD (1, "A") "x", Op.insert HEAD (1, "B") "y"]
    [Op.insert HEAD (1, "B") "y", Op.insert HEAD (1, "A") "x"]
    (by decide) (by decide) (by decide) (by decide) (by decide)).2.2.1

theorem charsLe_refl : ∀ x : List Char, charsLe x x = true
  | [] => rfl
  | c :: cs => by
    simp only [charsLe, Nat.lt_irrefl, if_false]
    exact charsLe_refl cs

theorem idLe_refl (a : CrdtId) : idLe a a = true := by
  unfold idLe
  simp only [Nat.lt_irrefl, if_false]
  exact charsLe_refl a.2.toList

theorem idLt_ne {a b : CrdtId} (h : idLt a b = true) : a ≠ b := by
  intro he
  subst he
  unfold idLt at h
  rw [idLe_refl] at h
  cases h

/-- In a duplicate-free descending-sorted list, the strictly larger of two
members comes first: `[x, y]` is a sublist. -/
theorem pair_sublist_of_sorted : ∀ {l : List CrdtId},
    List.Sorted descRel l → l.Nodup → ∀ {x y : CrdtId},
    x ∈ l → y ∈ l → idLt y x = true → List.Sublist [x, y] l
  | [], _, _, _, _, hx, _, _ => by cases hx
  | h :: t, hs, hnd, x, y, hx, hy, hlt => by
    have hst : List.Sorted descRel t := (List.sorted_cons.1 hs).2
    have hsh : ∀ b ∈ t, descRel h b := (List.sorted_cons.1 hs).1
    have hndt : t.Nodup := (List.nodup_cons.1 hnd).2
    rcases List.mem_cons.1 hx with hx' | hx'
    · subst hx'
      have hyt : y ∈ t := by
        rcases List.mem_cons.1 hy with hy' | hy'
        · exact absurd hy' (idLt_ne hlt)
        · exact hy'
      exact List.Sublist.cons₂ _ (List.singleton_sublist.2 hyt)
    · rcases List.mem_cons.1 hy with hy' | hy'
      · exfalso
        subst hy'
        have : descRel y x := hsh x hx'
        unfold descRel at this
        unfold idLt at hlt
        rw [this] at hlt
        cases hlt
      · exact List.Sublist.cons _ (pair_sublist_of_sorted hst hndt hx' hy' hlt)

theorem sublist_pair_decomp {α : Type} : ∀ {l : List α} {x y : α},
    List.Sublist [x, y] l → ∃ u v w, l = u ++ x :: (v ++ y :: w) := by
  intro l
  induction l with
  | nil =>
    intro x y h
    cases h
  | cons h t ih =>
    intro x y hsub
    cases hsub with
    | cons _ htail =>
      obtain ⟨u, v, w, huvw⟩ := ih htail
      exact ⟨h :: u, v, w, by rw [huvw]; rfl⟩
    | cons₂ _ htail =>
      obtain ⟨v, w, hvw⟩ := List.append_of_mem (List.singleton_sublist.1 htail)
      exact ⟨[], v, w, by rw [hvw]; rfl⟩

theorem exists_indices_of_decomp {α : Type} {m : List α} {x y : α}
    {u v w : List α} (h : m = u ++ x :: (v ++ y :: w)) :
    ∃ j k, j < k ∧ m.get? j = some x ∧ m.get? k = some y := by
  subst h
  refine ⟨u.length, u.length + (v.length + 1), by omega, ?_, ?_⟩
  · rw [List.get?_append_right (le_refl _)]
    simp
  · rw [List.get?_append_right (by omega)]
    have h1 : u.length + (v.length + 1) - u.length = v.length + 1 := by omega
    rw [h1]
    have h2 : (x :: (v ++ y :: w)).get? (v.length + 1) =
        (v ++ y :: w).get? v.length := rfl
    rw [h2]
    rw [List.get?_append_right (le_refl _)]
    simp

/-- The body of the DFS of `_visible_nodes_in_order` for one child id. -/
def visStep (s : Store) (f : Nat) (cid : CrdtId) : List Node :=
  match dlookup s.nodes cid with
  | some n => (if n.deleted then [] else [n]) ++ visRun s f cid
  | none => []

theorem visRun_succ (s : Store) (f : Nat) (p : CrdtId) :
    visRun s (f + 1) p = ((dlookup s.children p).getD []).flatMap (visStep s f) :=
  rfl

theorem flatMap_sublist_pointwise {α β : Type} {l : List α} {f₁ f₂ : α → List β}
    (h : ∀ a ∈ l, List.Sublist (f₁ a) (f₂ a)) :
    List.Sublist (l.flatMap f₁) (l.flatMap f₂) := by
  induction l with
  | nil => simp
  | cons a t ih =>
    rw [List.flatMap_cons, List.flatMap_cons]
    exact (h a (List.mem_cons_self _ _)).append
      (ih fun b hb => h b (List.mem_cons_of_mem _ hb))

theorem visRun_mono (s : Store) : ∀ {f g : Nat}, f ≤ g → ∀ p,
    List.Sublist (visRun s f p) (visRun s g p) := by
  intro f
  induction f with
  | zero =>
    intro g _ p
    exact List.nil_sublist _
  | succ f ih =>
    intro g hfg p
    cases g with
    | zero => omega
    | succ g =>
      rw [visRun_succ, visRun_succ]
      refine flatMap_sublist_pointwise ?_
      intro cid _
      unfold visStep
      cases dlookup s.nodes cid with
      | none => exact List.Sublist.refl _
      | some n =>
        exact (List.Sublist.refl _).append (ih (by omega) cid)

/-- Lift a sublist of one child's DFS block to the parent's DFS output. -/
theorem sub_step {s : Store} {r q : CrdtId} {l : List CrdtId} {f : Nat}
    {u : List Node} (hl : dlookup s.children r = some l) (hq : q ∈ l)
    (hu : List.Sublist u (visStep s f q)) :
    List.Sublist u (visRun s (f + 1) r) := by
  rw [visRun_succ, hl]
  obtain ⟨l₁, l₂, hsplit⟩ := List.append_of_mem hq
  rw [Option.getD_some, hsplit, List.flatMap_append, List.flatMap_cons]
  exact (hu.trans (List.sublist_append_left _ _)).trans
    (List.sublist_append_right _ _)

/-- Climbing the `after` chain: a sublist of a node's own DFS block (its
emission plus its subtree) is a sublist of the DFS from HEAD, with fuel
bounded by the node's insertion rank. -/
theorem sub_to_head {s : Store} (wf : WF s) : ∀ (k : Nat) (x : CrdtId) (nx : Node),
    dlookup s.nodes x = some nx → x ≠ HEAD →
    posIn (s.nodes.map Prod.fst) x ≤ k → ∀ (f : Nat) (u : List Node),
    List.Sublist u (visStep s f x) →
    List.Sublist u (visRun s (k + f + 1) HEAD) := by
  intro k
  induction k with
  | zero =>
    intro x nx hx hxH hrank f u hu
    exfalso
    have := (wf.afterRank x nx hx hxH).2
    omega
  | succ k ih =>
    intro x nx hx hxH hrank f u hu
    obtain ⟨l, hl, hxl⟩ := wf.chComplete x nx hx hxH
    by_cases haH : nx.after = HEAD
    · rw [haH] at hl
      have h1 : List.Sublist u (visRun s (f + 1) HEAD) := sub_step hl hxl hu
      exact h1.trans (visRun_mono s (by omega) HEAD)
    · have hamem : (dlookup s.nodes nx.after).isSome = true := by
        rw [← wf.chDomain]
        rw [hl]
        rfl
      obtain ⟨na, hna⟩ := Option.isSome_iff_exists.1 hamem
      have hrank' : posIn (s.nodes.map Prod.fst) nx.after ≤ k := by
        have := (wf.afterRank x nx hx hxH).2
        omega
      have h1 : List.Sublist u (visRun s (f + 1) nx.after) := sub_step hl hxl hu
      have h2 : List.Sublist u (visStep s (f + 1) nx.after) := by
        unfold visStep
        rw [hna]
        exact h1.trans (List.sublist_append_right _ _)
      have h3 := ih nx.after na hna haH hrank' (f + 1) u h2
      have harith : k + (f + 1) + 1 = k + 1 + f + 1 := by omega
      rw [harith] at h3
      exact h3

/-- Every visible non-HEAD node of a well-formed store is emitted by the
DFS from HEAD. -/
theorem visible_mem_visibleNodes {s : Store} (wf : WF s) {x : CrdtId} {nx : Node}
    (hx : dlookup s.nodes x = some nx) (hxH : x ≠ HEAD)
    (hvis : nx.deleted = false) : nx ∈ visibleNodesInOrder s := by
  have hrank : posIn (s.nodes.map Prod.fst) x < s.nodes.length := by
    have h1 := posIn_lt_length (mem_keys_of_dlookup hx)
    rw [List.length_map] at h1
    exact h1
  have hu : List.Sublist [nx] (visStep s 0 x) := by
    unfold visStep
    rw [hx]
    show List.Sublist [nx] ((if nx.deleted = true then [] else [nx]) ++ visRun s 0 x)
    rw [hvis]
    exact List.sublist_append_left _ _
  have h2 := sub_to_head wf (posIn (s.nodes.map Prod.fst) x) x nx hx hxH
    (le_refl _) 0 [nx] hu
  have h3 : List.Sublist [nx] (visRun s (s.nodes.length + 1) HEAD) :=
    h2.trans (visRun_mono s (by omega) HEAD)
  exact List.singleton_sublist.1 h3

/-- Two visible siblings, in their order in the parent's child list, are
emitted in that order by the DFS from HEAD. -/
theorem pair_emitted_in_order {s : Store} (wf : WF s) {p x y : CrdtId}
    {l : List CrdtId} {nx ny : Node}
    (hl : dlookup s.children p = some l)
    (hpair : List.Sublist [x, y] l)
    (hnx : dlookup s.nodes x = some nx) (hny : dlookup s.nodes y = some ny)
    (hvx : nx.deleted = false) (hvy : ny.deleted = false) :
    List.Sublist [nx, ny] (visibleNodesInOrder s) := by
  obtain ⟨u, v, w, hsplit⟩ := sublist_pair_decomp hpair
  have hpair1 : List.Sublist [nx, ny] (visRun s 1 p) := by
    rw [visRun_succ, hl, Option.getD_some, hsplit]
    rw [List.flatMap_append, List.flatMap_cons]
    have hx1 : List.Sublist [nx] (visStep s 0 x) := by
      unfold visStep
      rw [hnx]
      show List.Sublist [nx]
        ((if nx.deleted = true then [] else [nx]) ++ visRun s 0 x)
      rw [hvx]
      exact List.sublist_append_left _ _
    have hy1 : List.Sublist [ny] ((v ++ y :: w).flatMap (visStep s 0)) := by
      rw [List.flatMap_append, List.flatMap_cons]
      have hy2 : List.Sublist [ny] (visStep s 0 y) := by
        unfold visStep
        rw [hny]
        show List.Sublist [ny]
          ((if ny.deleted = true then [] else [ny]) ++ visRun s 0 y)
        rw [hvy]
        exact List.sublist_append_left _ _
      exact List.Sublist.trans
        (hy2.trans (List.sublist_append_left _ _))
        (List.sublist_append_right _ _)
    have hboth : List.Sublist ([nx] ++ [ny])
        (visStep s 0 x ++ (v ++ y :: w).flatMap (visStep s 0)) :=
      hx1.append hy1
    exact hboth.trans (List.sublist_append_right _ _)
  by_cases hpH : p = HEAD
  · subst hpH
    unfold visibleNodesInOrder
    exact hpair1.trans (visRun_mono s (by omega) HEAD)
  · have hpmem : (dlookup s.nodes p).isSome = true := by
      rw [← wf.chDomain, hl]
      rfl
    obtain ⟨np, hnp⟩ := Option.isSome_iff_exists.1 hpmem
    have hstep : List.Sublist [nx, ny] (visStep s 1 p) := by
      unfold visStep
      rw [hnp]
      exact hpair1.trans (List.sublist_append_right _ _)
    have hrank : posIn (s.nodes.map Prod.fst) p < s.nodes.length := by
      have h1 := posIn_lt_length (mem_keys_of_dlookup hnp)
      rw [List.length_map] at h1
      exact h1
    have h2 := sub_to_head wf (posIn (s.nodes.map Prod.fst) p) p np hnp hpH
      (le_refl _) 1 [nx, ny] hstep
    unfold visibleNodesInOrder
    exact h2.trans (visRun_mono s (by omega) HEAD)

theorem string_length_pos {t : String} (h : t ≠ "") : 0 < t.length := by
  cases t with
  | mk data =>
    have hd : data ≠ [] := by
      intro hd
      exact h (by rw [hd])
    have h2 : (String.mk data).length = data.length := rfl
    rw [h2]
    exact List.length_pos.2 hd

/-- In a well-formed store, of two visible non-empty siblings the one with
the strictly greater OpId occurs strictly earlier in `visible_id_map` (and
hence its text strictly earlier in `render`). -/
theorem tiebreak_pair {s : Store} (wf : WF s) {p x y : CrdtId} {nx ny : Node}
    (hx : dlookup s.nodes x = some nx) (hy : dlookup s.nodes y = some ny)
    (hxH : x ≠ HEAD) (hyH : y ≠ HEAD)
    (hax : nx.after = p) (hay : ny.after = p)
    (hvx : nx.deleted = false) (hvy : ny.deleted = false)
    (htx : nx.text ≠ "") (hty : ny.text ≠ "")
    (hlt : idLt y x = true) :
    ∃ j k, j < k ∧ (visible_id_map s).get? j = some x ∧
      (visible_id_map s).get? k = some y := by
  have hidx : nx.id = x := wf.idConsistent x nx hx
  have hidy : ny.id = y := wf.idConsistent y ny hy
  obtain ⟨l, hl, hxl⟩ := wf.chComplete x nx hx hxH
  obtain ⟨l', hl', hyl⟩ := wf.chComplete y ny hy hyH
  rw [hax] at hl
  rw [hay] at hl'
  have hll : l' = l := by
    rw [hl] at hl'
    exact (Option.some_inj.1 hl').symm
  rw [hll] at hyl
  have hpair := pair_sublist_of_sorted (wf.chSorted p l hl) (wf.chNodup p l hl)
    hxl hyl hlt
  have hemit := pair_emitted_in_order wf hl hpair hx hy hvx hvy
  obtain ⟨u, v, w, hdec⟩ := sublist_pair_decomp hemit
  obtain ⟨k₁, hk₁⟩ : ∃ k, nx.text.length = k + 1 := by
    have := string_length_pos htx
    exact ⟨nx.text.length - 1, by omega⟩
  obtain ⟨k₂, hk₂⟩ : ∃ k, ny.text.length = k + 1 := by
    have := string_length_pos hty
    exact ⟨ny.text.length - 1, by omega⟩
  have hmap : visible_id_map s =
      (u.flatMap fun n => List.replicate n.text.length n.id) ++ x ::
        ((List.replicate k₁ x ++
          v.flatMap fun n => List.replicate n.text.length n.id) ++ y ::
          (List.replicate k₂ y ++
            w.flatMap fun n => List.replicate n.text.length n.id)) := by
    unfold visible_id_map
    rw [hdec]
    rw [List.flatMap_append, List.flatMap_cons, List.flatMap_append,
      List.flatMap_cons]
    rw [hk₁, hk₂, hidx, hidy]
    rw [List.replicate_succ, List.replicate_succ]
    simp [List.append_assoc]
  exact exists_indices_of_decomp hmap

theorem apply_insert_nodes_eq {s : Store} {p i : CrdtId} {c : String}
    (hp : (dlookup s.nodes p).isSome = true) (hi : dlookup s.nodes i = none) :
    (apply_insert s p i c).1.nodes = dset s.nodes i ⟨i, p, c, false⟩ := by
  have hp' : ¬ (dlookup s.nodes p).isNone = true := by
    cases hl : dlookup s.nodes p with
    | none => rw [hl] at hp; cases hp
    | some w => simp
  have hi' : ¬ (dlookup s.nodes i).isSome = true := by simp [hi]
  simp [apply_insert, hp', hi']

/-- C4: tie-break determinism.  For two fresh inserts under the same parent
applied (in either order) to a reachable store, the node with the
lexicographically greater OpId occurs strictly before the other in the
visible id map, i.e. its character strictly precedes the other's in
`render()`; in particular, on the empty shared document, inserting 'X' as
(1,"AAAA") and 'Y' as (1,"BBBB") after HEAD renders "YX" in both delivery
orders. -/
theorem claim4_tiebreak :
    (∀ (s : Store) (p i₁ i₂ : CrdtId) (c₁ c₂ : String), Reachable s →
      (dlookup s.nodes p).isSome = true →
      dlookup s.nodes i₁ = none → dlookup s.nodes i₂ = none →
      idLt i₂ i₁ = true → c₁ ≠ "" → c₂ ≠ "" →
      (∃ j k, j < k ∧
        (visible_id_map (apply_insert (apply_insert s p i₁ c₁).1
          p i₂ c₂).1).get? j = some i₁ ∧
        (visible_id_map (apply_insert (apply_insert s p i₁ c₁).1
          p i₂ c₂).1).get? k = some i₂) ∧
      (∃ j k, j < k ∧
        (visible_id_map (apply_insert (apply_insert s p i₂ c₂).1
          p i₁ c₁).1).get? j = some i₁ ∧
        (visible_id_map (apply_insert (apply_insert s p i₂ c₂).1
          p i₁ c₁).1).get? k = some i₂)) ∧
    render (applyOps initStore
      [Op.insert HEAD (1, "AAAA") "X", Op.insert HEAD (1, "BBBB") "Y"]) = "YX" ∧
    render (applyOps initStore
      [Op.insert HEAD (1, "BBBB") "Y", Op.insert HEAD (1, "AAAA") "X"]) = "YX" := by
  refine ⟨?_, by decide, by decide⟩
  intro s p i₁ i₂ c₁ c₂ hreach hp h₁ h₂ hlt hc₁ hc₂
  have hne : i₁ ≠ i₂ := (idLt_ne hlt).symm
  have hwf := wf_reachable hreach
  have h₁H : i₁ ≠ HEAD := by
    intro he
    rw [he, hwf.headNode] at h₁
    cases h₁
  have h₂H : i₂ ≠ HEAD := by
    intro he
    rw [he, hwf.headNode] at h₂
    cases h₂
  have hpi₁ : p ≠ i₁ := by
    intro he
    rw [he, h₁] at hp
    cases hp
  have hpi₂ : p ≠ i₂ := by
    intro he
    rw [he, h₂] at hp
    cases hp
  constructor
  · have e₁ : (apply_insert s p i₁ c₁).1.nodes =
        dset s.nodes i₁ ⟨i₁, p, c₁, false⟩ := apply_insert_nodes_eq hp h₁
    have hp₁ : (dlookup (apply_insert s p i₁ c₁).1.nodes p).isSome = true := by
      rw [e₁, dlookup_dset_ne _ _ _ _ (Ne.symm hpi₁)]
      exact hp
    have hi₂₁ : dlookup (apply_insert s p i₁ c₁).1.nodes i₂ = none := by
      rw [e₁, dlookup_dset_ne _ _ _ _ hne]
      exact h₂
    have e₂ : (apply_insert (apply_insert s p i₁ c₁).1 p i₂ c₂).1.nodes =
        dset (apply_insert s p i₁ c₁).1.nodes i₂ ⟨i₂, p, c₂, false⟩ :=
      apply_insert_nodes_eq hp₁ hi₂₁
    have hx : dlookup (apply_insert (apply_insert s p i₁ c₁).1
        p i₂ c₂).1.nodes i₁ = some ⟨i₁, p, c₁, false⟩ := by
      rw [e₂, dlookup_dset_ne _ _ _ _ (Ne.symm hne), e₁, dlookup_dset_self]
    have hy : dlookup (apply_insert (apply_insert s p i₁ c₁).1
        p i₂ c₂).1.nodes i₂ = some ⟨i₂, p, c₂, false⟩ := by
      rw [e₂, dlookup_dset_self]
    have hwf₂ : WF (apply_insert (apply_insert s p i₁ c₁).1 p i₂ c₂).1 :=
      wf_reachable (Reachable.insert p i₂ c₂ (Reachable.insert p i₁ c₁ hreach))
    exact tiebreak_pair hwf₂ hx hy h₁H h₂H rfl rfl rfl rfl hc₁ hc₂ hlt
  · have e₁ : (apply_insert s p i₂ c₂).1.nodes =
        dset s.nodes i₂ ⟨i₂, p, c₂, false⟩ := apply_insert_nodes_eq hp h₂
    have hp₁ : (dlookup (apply_insert s p i₂ c₂).1.nodes p).isSome = true := by
      rw [e₁, dlookup_dset_ne _ _ _ _ (Ne.symm hpi₂)]
      exact hp
    have hi₁₂ : dlookup (apply_insert s p i₂ c₂).1.nodes i₁ = none := by
      rw [e₁, dlookup_dset_ne _ _ _ _ (Ne.symm hne)]
      exact h₁
    have e₂ : (apply_insert (apply_insert s p i₂ c₂).1 p i₁ c₁).1.nodes =
        dset (apply_insert s p i₂ c₂).1.nodes i₁ ⟨i₁, p, c₁, false⟩ :=
      apply_insert_nodes_eq hp₁ hi₁₂
    have hx : dlookup (apply_insert (apply_insert s p i₂ c₂).1
        p i₁ c₁).1.nodes i₁ = some ⟨i₁, p, c₁, false⟩ := by
      rw [e₂, dlookup_dset_self]
    have hy : dlookup (apply_insert (apply_insert s p i₂ c₂).1
        p i₁ c₁).1.nodes i₂ = some ⟨i₂, p, c₂, false⟩ := by
      rw [e₂, dlookup_dset_ne _ _ _ _ hne, e₁, dlookup_dset_self]
    have hwf₂ : WF (apply_insert (apply_insert s p i₂ c₂).1 p i₁ c₁).1 :=
      wf_reachable (Reachable.insert p i₁ c₁ (Reachable.insert p i₂ c₂ hreach))
    exact tiebreak_pair hwf₂ hx hy h₁H h₂H rfl rfl rfl rfl hc₁ hc₂ hlt

/-- C4 witness: the scenario of the claim run concretely — both delivery
orders of the two concurrent root inserts place (1,"BBBB") before
(1,"AAAA") in the visible id map. -/
theorem claim4_tiebreak_witness :
    (∃ j k, j < k ∧
      (visible_id_map (apply_insert (apply_insert initStore HEAD
        (1, "BBBB") "Y").1 HEAD (1, "AAAA") "X").1).get? j = some (1, "BBBB") ∧
      (visible_id_map (apply_insert (apply_insert initStore HEAD
        (1, "BBBB") "Y").1 HEAD (1, "AAAA") "X").1).get? k = some (1, "AAAA")) ∧
    (∃ j k, j < k ∧
      (visible_id_map (apply_insert (apply_insert initStore HEAD
        (1, "AAAA") "X").1 HEAD (1, "BBBB") "Y").1).get? j = some (1, "BBBB") ∧
      (visible_id_map (apply_insert (apply_insert initStore HEAD
        (1, "AAAA") "X").1 HEAD (1, "BBBB") "Y").1).get? k = some (1, "AAAA")) := by
  have h := claim4_tiebreak.1 initStore HEAD (1, "BBBB") (1, "AAAA") "Y" "X"
    Reachable.init (by decide) (by decide) (by decide) (by decide)
    (by decide) (by decide)
  exact h

theorem posOf_eq_none_iff (l : List CrdtId) (q : CrdtId) :
    posOf l q = none ↔ q ∉ l := by
  induction l with
  | nil => simp [posOf]
  | cons x t ih =>
    by_cases hx : x = q
    · simp [posOf, hx]
    · unfold posOf
      rw [if_neg hx]
      cases hp : posOf t q with
      | none =>
        simp [Option.map, ih.1 hp, Ne.symm hx]
      | some i =>
        have hq : q ∈ t := by
          by_contra hq
          rw [ih.2 hq] at hp
          cases hp
        simp [Option.map, List.mem_cons, hq]

theorem posIn_le_length (l : List CrdtId) (q : CrdtId) : posIn l q ≤ l.length := by
  induction l with
  | nil => simp [posIn]
  | cons x t ih =>
    by_cases hx : x = q
    · simp [posIn, hx]
    · simp only [posIn, hx, if_false, List.length_cons]
      omega

theorem mem_visible_id_map_of_visible {s : Store} (wf : WF s) {q : CrdtId}
    {n : Node} (hq : dlookup s.nodes q = some n) (hqH : q ≠ HEAD)
    (hvis : n.deleted = false) (htext : n.text ≠ "") :
    q ∈ visible_id_map s := by
  have hmem := visible_mem_visibleNodes wf hq hqH hvis
  unfold visible_id_map
  rw [List.mem_flatMap]
  refine ⟨n, hmem, ?_⟩
  rw [List.mem_replicate]
  refine ⟨?_, (wf.idConsistent q n hq).symm⟩
  have := string_length_pos htext
  omega

theorem caretWalk_eq_firstVisibleUp {s : Store} (wf : WF s)
    (htext : ∀ pr ∈ s.nodes, pr.1 = HEAD ∨ pr.2.text ≠ "") :
    ∀ (f : Nat) (c : CrdtId),
      caretWalk s (visible_id_map s) f c = posOfNode s (firstVisibleUp s f c) := by
  intro f
  induction f with
  | zero =>
    intro c
    simp [caretWalk, firstVisibleUp, posOfNode]
  | succ f ih =>
    intro c
    unfold caretWalk firstVisibleUp
    by_cases hcH : c = HEAD
    · simp [hcH, posOfNode]
    · rw [if_neg hcH, if_neg hcH]
      cases hl : dlookup s.nodes c with
      | none => simp [posOfNode]
      | some n =>
        dsimp only
        by_cases hdel : n.deleted = true
        · rw [if_pos hdel, if_pos hdel]
          exact ih n.after
        · have hdel' : n.deleted = false := by
            cases hb : n.deleted
            · rfl
            · exact absurd hb hdel
          rw [if_neg hdel, if_neg hdel]
          have htxt : n.text ≠ "" := by
            rcases htext (c, n) (mem_of_dlookup hl) with h | h
            · exact absurd h hcH
            · exact h
          have hmem : c ∈ visible_id_map s :=
            mem_visible_id_map_of_visible wf hl hcH hdel' htxt
          cases hp : posOf (visible_id_map s) c with
          | none => exact absurd ((posOf_eq_none_iff _ _).1 hp) (fun h => h hmem)
          | some i =>
            unfold posOfNode
            rw [if_neg hcH, hp]

theorem firstVisibleUp_stable {s : Store} (wf : WF s) :
    ∀ (k : Nat) (c : CrdtId) (f g : Nat),
      posIn (s.nodes.map Prod.fst) c ≤ k → k < f → k < g →
      firstVisibleUp s f c = firstVisibleUp s g c := by
  intro k
  induction k with
  | zero =>
    intro c f g hrank hf hg
    cases f with
    | zero => omega
    | succ f =>
      cases g with
      | zero => omega
      | succ g =>
        unfold firstVisibleUp
        by_cases hcH : c = HEAD
        · simp [hcH]
        · rw [if_neg hcH, if_neg hcH]
          cases hl : dlookup s.nodes c with
          | none => rfl
          | some n =>
            dsimp only
            by_cases hdel : n.deleted = true
            · exfalso
              have := (wf.afterRank c n hl hcH).2
              omega
            · rw [if_neg hdel, if_neg hdel]
  | succ k ih =>
    intro c f g hrank hf hg
    cases f with
    | zero => omega
    | succ f =>
      cases g with
      | zero => omega
      | succ g =>
        unfold firstVisibleUp
        by_cases hcH : c = HEAD
        · simp [hcH]
        · rw [if_neg hcH, if_neg hcH]
          cases hl : dlookup s.nodes c with
          | none => rfl
          | some n =>
            dsimp only
            by_cases hdel : n.deleted = true
            · rw [if_pos hdel, if_pos hdel]
              have hr := (wf.afterRank c n hl hcH).2
              exact ih n.after f g (by omega) (by omega) (by omega)
            · rw [if_neg hdel, if_neg hdel]

/-- C8: cursor anchor mapping.  (1) `_update_cursor_node_from_position` maps
caret 0 to HEAD, an in-range caret `pos` to `visible_id_map()[pos-1]`, and
an out-of-range caret to the map's last element (HEAD when empty).
(2) `_get_cursor_position_from_node` returns 0 for the HEAD anchor, `i+1`
when the anchor is found (first) at index `i` of the visible id map, and
otherwise — on a reachable store whose non-HEAD nodes carry at least one
character, as every node the editor creates does — walks the anchor's
`after` chain up to the first visible ancestor (HEAD if none) and returns
that node's position; the spec-side walk `firstVisibleUp` is insensitive to
any fuel of at least `nodes.length + 1`. -/
theorem claim8_cursor_anchor (s : Store) (pos : Nat) (anchor : CrdtId) :
    (pos = 0 → updateFromCaret s pos = HEAD) ∧
    (pos ≠ 0 → pos ≤ (visible_id_map s).length →
      updateFromCaret s pos = (visible_id_map s).getD (pos - 1) HEAD) ∧
    ((visible_id_map s).length < pos →
      updateFromCaret s pos = ((visible_id_map s).getLast?).getD HEAD) ∧
    (caretFromAnchor s HEAD = 0) ∧
    (∀ i, anchor ≠ HEAD → posOf (visible_id_map s) anchor = some i →
      caretFromAnchor s anchor = i + 1) ∧
    (Reachable s → (∀ pr ∈ s.nodes, pr.1 = HEAD ∨ pr.2.text ≠ "") →
      anchor ≠ HEAD → posOf (visible_id_map s) anchor = none →
      caretFromAnchor s anchor =
        posOfNode s (firstVisibleUp s (s.nodes.length + 1) anchor) ∧
      (∀ f, s.nodes.length + 1 ≤ f →
        firstVisibleUp s f anchor = firstVisibleUp s (s.nodes.length + 1) anchor)) := by
  refine ⟨?_, ?_, ?_, ?_, ?_, ?_⟩
  · intro h
    simp [updateFromCaret, h]
  · intro h1 h2
    simp [updateFromCaret, h1, h2]
  · intro h
    have h1 : pos ≠ 0 := by omega
    have h2 : ¬ pos ≤ (visible_id_map s).length := by omega
    unfold updateFromCaret
    rw [if_neg h1, if_neg h2]
    cases hl : (visible_id_map s).getLast? with
    | none => rfl
    | some x => rfl
  · simp [caretFromAnchor]
  · intro i hH hp
    unfold caretFromAnchor
    rw [if_neg hH, hp]
  · intro hreach htext hH hp
    have hwf := wf_reachable hreach
    constructor
    · unfold caretFromAnchor
      rw [if_neg hH, hp]
      exact caretWalk_eq_firstVisibleUp hwf htext _ anchor
    · intro f hf
      have hrank : posIn (s.nodes.map Prod.fst) anchor ≤ s.nodes.length := by
        have := posIn_le_length (s.nodes.map Prod.fst) anchor
        rw [List.length_map] at this
        exact this
      exact firstVisibleUp_stable hwf s.nodes.length anchor f (s.nodes.length + 1)
        hrank (by omega) (by omega)

/-- C8 witness: on the store "x" then "y" with "y" deleted, anchoring at the
deleted node walks up to the visible "x" node, caret position 1. -/
theorem claim8_cursor_anchor_witness :
    caretFromAnchor (apply_delete (apply_insert (apply_insert initStore HEAD
      (1, "A") "x").1 (1, "A") (2, "B") "y").1 (2, "B")).1 (2, "B") =
    posOfNode (apply_delete (apply_insert (apply_insert initStore HEAD
      (1, "A") "x").1 (1, "A") (2, "B") "y").1 (2, "B")).1
      (firstVisibleUp (apply_delete (apply_insert (apply_insert initStore HEAD
        (1, "A") "x").1 (1, "A") (2, "B") "y").1 (2, "B")).1
        ((apply_delete (apply_insert (apply_insert initStore HEAD
          (1, "A") "x").1 (1, "A") (2, "B") "y").1 (2, "B")).1.nodes.length + 1)
        (2, "B")) :=
  ((claim8_cursor_anchor _ 0 (2, "B")).2.2.2.2.2
    (Reachable.delete (2, "B") (Reachable.insert (1, "A") (2, "B") "y"
      (Reachable.insert HEAD (1, "A") "x" Reachable.init)))
    (by decide) (by decide) (by decide)).1
